import Mathlib

/-!
Tetris-Game: a shallow embedding of the game-state engine of `src/main.cpp`.

Conventions of the embedding.

* The C++ type `int` is embedded as `Int`.  Signed overflow is undefined behaviour in C++,
  so the embedding gives coordinates their mathematical value.
* The C++ type `unsigned` (the score) is embedded as `Nat` with an explicit `% 2 ^ 32`
  where the source adds to it.
* `std::bitset<MAX_SQUARE>` is embedded as the natural number whose binary digits are the
  bits of the bitset (`Bitset`).  An access at an index outside `[0, MAX_SQUARE)` throws
  (`test`, `set`, `reset`) or is undefined (`operator[]`) in C++; the embedding makes it
  read `false` and write nothing, and the section "Checked bitset accesses" repeats the
  functions that index a bitset with a result `none` for such an access.
* A function that takes `screen`, `piece` and `image` by reference returns the new values
  of the three in a `Refs` record, next to its C++ return value.
* `while` loops whose number of iterations is not fixed by the syntax (`block_drop`,
  `block_shadow`, the row loop of `check_for_score`) take a `fuel` argument and return
  `none` when it runs out.
-/

namespace Tetris

/-! ## Constants -/

/-- Number of rows of the board: `constexpr int ROW = 15`. -/
abbrev ROW : Int := 15

/-- Number of columns of the board: `constexpr int COL = 10`. -/
abbrev COL : Int := 10

/-- Number of cells of the board: `constexpr int MAX_SQUARE = ROW * COL`. -/
abbrev MAX_SQUARE : Int := ROW * COL

/-! ## `std::bitset<MAX_SQUARE>` -/

/-- The bits of a `std::bitset<MAX_SQUARE>`, least significant bit at index 0. -/
abbrev Bitset := Nat

namespace Bitset

/-- The index is one of the bitset: `0 <= index < MAX_SQUARE`. -/
def in_range (index : Int) : Bool := decide (0 ≤ index) && decide (index < MAX_SQUARE)

/-- Embeds `bitset::test(index)` (also the read `screen[index]`). -/
def test (b : Bitset) (index : Int) : Bool :=
  in_range index && Nat.testBit b index.toNat

/-- Embeds `bitset::set(index)`. -/
def set (b : Bitset) (index : Int) : Bitset :=
  if in_range index then b ||| (1 <<< index.toNat) else b

/-- Embeds `bitset::reset(index)`. -/
def reset (b : Bitset) (index : Int) : Bitset :=
  if in_range index then b ^^^ (b &&& (1 <<< index.toNat)) else b

/-- The write `screen[index] = value`. -/
def assign (b : Bitset) (index : Int) (value : Bool) : Bitset :=
  if value then set b index else reset b index

/-- The bitset with no bit set: a default-constructed bitset, or one after `reset()`. -/
def empty : Bitset := 0

/-- Number of set bits among the indices `0 .. MAX_SQUARE - 1`. -/
def count (b : Bitset) : Nat :=
  (List.range MAX_SQUARE.toNat).countP (fun i => Nat.testBit b i)

end Bitset

/-- The C++ loop `for (int i = lo; i < hi; ++i)`: the values `i` takes, in order. -/
def int_range (lo hi : Int) : List Int :=
  (List.range (hi - lo).toNat).map (fun (k : Nat) => lo + (k : Int))

/-! ## Geometry -/

/-- Embeds `struct Point { int col, row; }`. -/
structure Point where
  col : Int
  row : Int
deriving DecidableEq, Repr

namespace Point

/-- Embeds `Point::operator+`. -/
def add (p other : Point) : Point := ⟨p.col + other.col, p.row + other.row⟩

/-- Embeds `Point::rotate_cw`: `{-row, col}`. -/
def rotate_cw (p : Point) : Point := ⟨-p.row, p.col⟩

/-- Embeds `Point::rotate_ccw`: `{row, -col}`. -/
def rotate_ccw (p : Point) : Point := ⟨p.row, -p.col⟩

end Point

/-- Embeds `using Tetromino = vector<Point>`. -/
abbrev Tetromino := List Point

/-- The catalog `TETROMINOS` of the ten archetypes, in the order of the source. -/
def TETROMINOS : List Tetromino :=
  [ [⟨0, 0⟩, ⟨0, 1⟩],
    [⟨0, 0⟩],
    [⟨0, 0⟩, ⟨0, 1⟩, ⟨1, 0⟩, ⟨1, 1⟩],
    [⟨-1, 0⟩, ⟨0, 0⟩, ⟨1, 0⟩, ⟨2, 0⟩],
    [⟨-1, 0⟩, ⟨-1, 1⟩, ⟨0, 0⟩, ⟨1, 0⟩],
    [⟨-1, 0⟩, ⟨0, 0⟩, ⟨1, 0⟩, ⟨1, 1⟩],
    [⟨-1, 1⟩, ⟨0, 1⟩, ⟨0, 0⟩, ⟨1, 0⟩],
    [⟨-1, 0⟩, ⟨0, 0⟩, ⟨0, 1⟩, ⟨1, 1⟩],
    [⟨-1, 0⟩, ⟨0, 0⟩, ⟨1, 0⟩, ⟨0, 1⟩],
    [⟨0, 0⟩, ⟨1, 1⟩] ]

/-! ## Piece -/

/-- Embeds `struct BlockPiece`. -/
structure BlockPiece where
  shape : Tetromino
  position : Point
  rotation : Int
  type : Int
deriving DecidableEq, Repr

/-- The constructor `BlockPiece(t, pos, piece_type)`; the rotation starts at 0. -/
def BlockPiece.create (t : Tetromino) (pos : Point) (piece_type : Int) : BlockPiece :=
  { shape := t, position := pos, rotation := 0, type := piece_type }

/-- The outer loop of `get_rotated_shape`, run `n` times: every point is rotated clockwise
once per run. -/
def rotate_loop : Nat → Tetromino → Tetromino
  | 0, rotated => rotated
  | n + 1, rotated => rotate_loop n (rotated.map Point.rotate_cw)

/-- Embeds `BlockPiece::get_rotated_shape`: `for (int r = 0; r < rotation; ++r)` runs
`rotation` times when `rotation` is positive and not at all otherwise. -/
def BlockPiece.get_rotated_shape (piece : BlockPiece) : Tetromino :=
  rotate_loop piece.rotation.toNat piece.shape

/-- Embeds `BlockPiece::get_absolute_positions`. -/
def BlockPiece.get_absolute_positions (piece : BlockPiece) : List Point :=
  piece.get_rotated_shape.map (fun pt => piece.position.add pt)

/-- Embeds `create_spawn_point`: `Point(COL / 2, ROW - 2)`. -/
def create_spawn_point : Point := ⟨Int.tdiv COL 2, ROW - 2⟩

/-! ## Collision -/

/-- Embeds `is_valid_position`. -/
def is_valid_position (col row : Int) : Bool :=
  decide (col ≥ 0) && decide (col < COL) && decide (row ≥ 0) && decide (row < ROW)

/-- Embeds `mark_point_on_img`. -/
def mark_point_on_img (pt : Point) (image : Bitset) : Bitset :=
  if is_valid_position pt.col pt.row then
    let index := pt.row * COL + pt.col
    Bitset.set image index
  else image

/-- Embeds `create_image`. -/
def create_image (piece : BlockPiece) : Bitset :=
  piece.get_absolute_positions.foldl (fun image pos => mark_point_on_img pos image)
    Bitset.empty

/-- Embeds `paste_image`: `screen |= image; image.reset();`, returning the new
`(screen, image)`. -/
def paste_image (screen image : Bitset) : Bitset × Bitset :=
  (screen ||| image, Bitset.empty)

/-- The loop of `can_move_piece` over the positions, with its two early `return false`. -/
def can_move_loop (screen : Bitset) : List Point → Bool
  | [] => true
  | pos :: rest =>
    if !is_valid_position pos.col pos.row then false
    else if decide (pos.row < ROW) && Bitset.test screen (pos.row * COL + pos.col) then false
    else can_move_loop screen rest

/-- Embeds `can_move_piece`. -/
def can_move_piece (piece : BlockPiece) (screen : Bitset) : Bool :=
  can_move_loop screen piece.get_absolute_positions

/-! ## Movement -/

/-- The values of the three objects `screen`, `piece`, `image` that the movement functions
take by reference. -/
structure Refs where
  screen : Bitset
  piece : BlockPiece
  image : Bitset
deriving DecidableEq, Repr

/-- The copy of `piece` with `position.row--`. -/
def BlockPiece.lowered (piece : BlockPiece) : BlockPiece :=
  { piece with position := ⟨piece.position.col, piece.position.row - 1⟩ }

/-- Embeds `block_fall`: the returned `bool` and the new values of the references. -/
def block_fall (screen : Bitset) (piece : BlockPiece) (image : Bitset) : Bool × Refs :=
  let next_piece := piece.lowered
  if can_move_piece next_piece screen then
    (true, { screen := screen, piece := next_piece, image := create_image next_piece })
  else
    let pasted := paste_image screen image
    (false, { screen := pasted.1, piece := piece, image := pasted.2 })

/-- Embeds `block_drop`: `while (block_fall(screen, piece, image)) {}`; one unit of fuel
per call of `block_fall`. -/
def block_drop : Nat → Bitset → BlockPiece → Bitset → Option Refs
  | 0, _, _, _ => none
  | fuel + 1, screen, piece, image =>
    let r := block_fall screen piece image
    if r.1 then block_drop fuel r.2.screen r.2.piece r.2.image else some r.2

/-- The `while (true)` loop of `block_shadow`: the final `shadow_piece`; one unit of fuel
per test of `can_move_piece`. -/
def shadow_loop : Nat → Bitset → BlockPiece → Option BlockPiece
  | 0, _, _ => none
  | fuel + 1, screen, shadow_piece =>
    let next_piece := shadow_piece.lowered
    if can_move_piece next_piece screen then shadow_loop fuel screen next_piece
    else some shadow_piece

/-- Embeds `block_shadow`: the image of the piece at its potential ground position. -/
def block_shadow (fuel : Nat) (screen : Bitset) (piece : BlockPiece) : Option Bitset :=
  (shadow_loop fuel screen piece).map create_image

/-- Embeds `block_move_horizontal`. -/
def block_move_horizontal (screen : Bitset) (piece : BlockPiece) (image : Bitset)
    (direction : Int) : Bool × Refs :=
  let next_piece : BlockPiece :=
    { piece with position := ⟨piece.position.col + direction, piece.position.row⟩ }
  if can_move_piece next_piece screen then
    (true, { screen := screen, piece := next_piece, image := create_image next_piece })
  else
    (false, { screen := screen, piece := piece, image := image })

/-- The copy `kicked_piece` of `rotated_piece` with `position.col += kick_x` and
`position.row += kick_y`. -/
def BlockPiece.kicked (rotated_piece : BlockPiece) (kick_x kick_y : Int) : BlockPiece :=
  { rotated_piece with
    position := ⟨rotated_piece.position.col + kick_x, rotated_piece.position.row + kick_y⟩ }

/-- The inner loop `for (kick_y ...)` of `block_rotate` over the remaining values of
`kick_y`: the first kicked piece that can be placed, if any. -/
def kick_y_loop (screen : Bitset) (rotated_piece : BlockPiece) (kick_x : Int) :
    List Int → Option BlockPiece
  | [] => none
  | kick_y :: rest =>
    if kick_x = 0 ∧ kick_y = 0 then kick_y_loop screen rotated_piece kick_x rest
    else
      let kicked_piece := rotated_piece.kicked kick_x kick_y
      if can_move_piece kicked_piece screen then some kicked_piece
      else kick_y_loop screen rotated_piece kick_x rest

/-- The outer loop `for (kick_x ...)` of `block_rotate` over the remaining values of
`kick_x`. -/
def kick_x_loop (screen : Bitset) (rotated_piece : BlockPiece) :
    List Int → Option BlockPiece
  | [] => none
  | kick_x :: rest =>
    match kick_y_loop screen rotated_piece kick_x (int_range (-1) 2) with
    | some kicked_piece => some kicked_piece
    | none => kick_x_loop screen rotated_piece rest

/-- Embeds `block_rotate`.  The C++ operator `%` truncates towards zero (`Int.tmod`). -/
def block_rotate (screen : Bitset) (piece : BlockPiece) (image : Bitset) : Bool × Refs :=
  let rotated_piece : BlockPiece :=
    { piece with rotation := Int.tmod (piece.rotation + 1) 4 }
  if can_move_piece rotated_piece screen then
    (true, { screen := screen, piece := rotated_piece, image := create_image rotated_piece })
  else
    match kick_x_loop screen rotated_piece (int_range (-1) 2) with
    | some kicked_piece =>
      (true, { screen := screen, piece := kicked_piece, image := create_image kicked_piece })
    | none => (false, { screen := screen, piece := piece, image := image })

/-! ## Line clearing and scoring -/

/-- The test loop of `check_for_score` for one row: `full_line` stays `true` iff every
column of the row is set. -/
def full_line (screen : Bitset) (row : Int) : Bool :=
  (int_range 0 COL).all (fun col => Bitset.test screen (row * COL + col))

/-- The loop "Clear the line" of `check_for_score`. -/
def clear_line (screen : Bitset) (row : Int) : Bitset :=
  (int_range 0 COL).foldl (fun screen col => Bitset.reset screen (row * COL + col)) screen

/-- The body of the loop "Move all lines above down by one" for one `move_row`. -/
def move_row_down (screen : Bitset) (move_row : Int) : Bitset :=
  (int_range 0 COL).foldl
    (fun screen col =>
      let from_idx := move_row * COL + col
      let to_idx := (move_row - 1) * COL + col
      Bitset.assign (Bitset.assign screen to_idx (Bitset.test screen from_idx)) from_idx false)
    screen

/-- The loop "Move all lines above down by one" of `check_for_score`. -/
def move_lines_down (screen : Bitset) (row : Int) : Bitset :=
  (int_range (row + 1) ROW).foldl move_row_down screen

/-- The row loop `for (int row = 0; row < ROW; ++row)` of `check_for_score`, from the
test of `row < ROW` on: the final `(screen, lines_cleared)`.  After a full line the source
does `row--` and the loop header `++row`.  One unit of fuel per test of `row < ROW`. -/
def check_rows : Nat → Int → Bitset → Nat → Option (Bitset × Nat)
  | 0, _, _, _ => none
  | fuel + 1, row, screen, lines_cleared =>
    if row < ROW then
      if full_line screen row then
        check_rows fuel ((row - 1) + 1) (move_lines_down (clear_line screen row) row)
          (lines_cleared + 1)
      else check_rows fuel (row + 1) screen lines_cleared
    else some (screen, lines_cleared)

/-- Embeds `check_for_score`: the new `(screen, score)`; `score` is a 32-bit `unsigned`. -/
def check_for_score (fuel : Nat) (screen : Bitset) (score : Nat) : Option (Bitset × Nat) :=
  match check_rows fuel 0 screen 0 with
  | none => none
  | some (screen, lines_cleared) =>
    if lines_cleared > 0 then
      some (screen, (score + lines_cleared * lines_cleared * 100) % 2 ^ 32)
    else some (screen, score)

/-! ## Rows of the board, for the statements about line clearing -/

/-- The cells of row `row` of the board, from column 0 to column `COL - 1`. -/
def board_row (screen : Bitset) (row : Int) : List Bool :=
  (int_range 0 COL).map (fun col => Bitset.test screen (row * COL + col))

/-- The rows of the board, from row 0 (the bottom) to row `ROW - 1` (the top). -/
def board_rows (screen : Bitset) : List (List Bool) :=
  (int_range 0 ROW).map (board_row screen)

/-- Every cell of the row is set. -/
def row_is_full (cells : List Bool) : Bool := cells.all id

/-- The row with no cell set. -/
def empty_row : List Bool := List.replicate COL.toNat false

/-- Number of full rows of the board. -/
def full_row_count (screen : Bitset) : Nat :=
  (board_rows screen).countP row_is_full

/-- The rows that are not full, in their order, followed by one all-empty row for every
full row: what the specification asks the board to be after the line clearer. -/
def compacted_rows (rows : List (List Bool)) : List (List Bool) :=
  rows.filter (fun cells => !row_is_full cells)
    ++ List.replicate (rows.countP row_is_full) empty_row

/-! ## Boards and pieces used as concrete inputs -/

/-- A board whose rows 2 and 4 are full and no other row is: it also has cell (0,0), the
cells (0,3) and (2,3), and the cells (0,14), (1,14), (2,14) set. -/
def two_full_rows_board : Bitset :=
  1023 * 2 ^ 20 + 1023 * 2 ^ 40 + 5 * 2 ^ 30 + 7 * 2 ^ 140 + 1

/-- The board whose `n` lowest rows are full and whose other rows are empty. -/
def full_rows_board (n : Nat) : Bitset := 2 ^ (10 * n) - 1

/-- The single-cell piece (archetype 1) at column `col`, row `row`, rotation 0. -/
def dot_piece (col row : Int) : BlockPiece :=
  { shape := [⟨0, 0⟩], position := ⟨col, row⟩, rotation := 0, type := 1 }

/-- The 4-in-line piece (archetype 3) at the spawn point, rotation 0. -/
def line_piece_at_spawn : BlockPiece :=
  BlockPiece.create [⟨-1, 0⟩, ⟨0, 0⟩, ⟨1, 0⟩, ⟨2, 0⟩] create_spawn_point 3

/-! ## The candidates of a rotation, for the statement about `block_rotate` -/

/-- The candidates of a rotation as the specification lists them: the piece with rotation
`(rotation + 1) % 4`, translated by `(0,0)`, `(-1,-1)`, `(-1,0)`, `(-1,1)`, `(0,-1)`,
`(0,1)`, `(1,-1)`, `(1,0)`, `(1,1)` in its column and row, in this order. -/
def rotate_candidates (piece : BlockPiece) : List BlockPiece :=
  ([(0, 0), (-1, -1), (-1, 0), (-1, 1), (0, -1), (0, 1), (1, -1), (1, 0), (1, 1)] :
      List (Int × Int)).map
    (fun d =>
      { shape := piece.shape,
        position := ⟨piece.position.col + d.1, piece.position.row + d.2⟩,
        rotation := Int.tmod (piece.rotation + 1) 4,
        type := piece.type })

/-! ## The game loop -/

/-- Embeds `spawn_new_piece`, for the value `piece_type` that
`random_number(0, TETROMINOS.size())` returns. -/
def spawn_new_piece (piece_type : Nat) : BlockPiece :=
  BlockPiece.create (TETROMINOS.getD piece_type []) create_spawn_point piece_type

/-- The level that `game_loop` computes after a lock: `level = score / 250 + 1`, an
`unsigned` expression (modulo `2 ^ 32`) stored in an `int`. -/
def level_of_score (score : Nat) : Int := (((score / 250 + 1) % 2 ^ 32 : Nat) : Int)

/-- The fall interval of `game_loop` in milliseconds:
`max(50, base_fall_time - (level - 1) * 50)` with `base_fall_time = 800`. -/
def fall_interval (level : Int) : Int := max 50 (800 - (level - 1) * 50)

/-- The variables of `game_loop` that the engine reads and writes. -/
structure Session where
  screen : Bitset
  image : Bitset
  score : Nat
  running : Bool
  level : Int
  current_piece : BlockPiece
  next_piece : BlockPiece
deriving DecidableEq, Repr

/-- The body of the auto-fall branch of `game_loop`, run when the fall interval has
elapsed: `block_fall`, and when the piece has landed `check_for_score`, the new level, the
hand-over to the next piece (`spawned_type` is the type of the piece that
`spawn_new_piece` then draws) and the game-over check. -/
def gravity_tick (fuel : Nat) (s : Session) (spawned_type : Nat) : Option Session :=
  let r := block_fall s.screen s.current_piece s.image
  if !r.1 then
    match check_for_score fuel r.2.screen s.score with
    | none => none
    | some (screen, score) =>
      let level := level_of_score score
      let current_piece := s.next_piece
      let next_piece := spawn_new_piece spawned_type
      let image := create_image current_piece
      if !can_move_piece current_piece screen then
        some { screen := screen, image := image, score := score, running := false,
               level := level, current_piece := current_piece, next_piece := next_piece }
      else
        some { screen := screen, image := image, score := score, running := s.running,
               level := level, current_piece := current_piece, next_piece := next_piece }
  else
    some { s with screen := r.2.screen, current_piece := r.2.piece, image := r.2.image }

/-- Embeds `handle_kb_event`, for the value `key` of the first `_getch()` and the value
`second_key` of the second one (read only after 0 or 224): the new values of `screen`,
`piece`, `image` and `running`. -/
def handle_kb_event (fuel : Nat) (key second_key : Int) (screen : Bitset)
    (piece : BlockPiece) (image : Bitset) (running : Bool) : Option (Refs × Bool) :=
  if key = 0 ∨ key = 224 then
    if second_key = 80 then
      (block_drop fuel screen piece image).map (fun r => (r, running))
    else if second_key = 75 then
      some ((block_move_horizontal screen piece image (-1)).2, running)
    else if second_key = 77 then
      some ((block_move_horizontal screen piece image 1).2, running)
    else if second_key = 72 then
      some ((block_rotate screen piece image).2, running)
    else some ({ screen := screen, piece := piece, image := image }, running)
  else
    if key = 115 then
      (block_drop fuel screen piece image).map (fun r => (r, running))
    else if key = 97 then
      some ((block_move_horizontal screen piece image (-1)).2, running)
    else if key = 100 then
      some ((block_move_horizontal screen piece image 1).2, running)
    else if key = 119 then
      some ((block_rotate screen piece image).2, running)
    else if key = 27 then
      some ({ screen := screen, piece := piece, image := image }, false)
    else if key = 32 then
      some ((block_rotate screen piece image).2, running)
    else if key = 113 ∨ key = 81 then
      some ({ screen := screen, piece := piece, image := image }, false)
    else some ({ screen := screen, piece := piece, image := image }, running)

/-- The legal-placement invariant of the current piece: it passes `can_move_piece` on the
board, the image is its image, and its rotation is one of 0, 1, 2, 3. -/
def legal_placement (screen : Bitset) (piece : BlockPiece) (image : Bitset) : Prop :=
  can_move_piece piece screen = true ∧ image = create_image piece ∧
    0 ≤ piece.rotation ∧ piece.rotation ≤ 3

/-- The 4-in-line piece after its hard drop from the spawn point on the empty board: at
column 5, row 0. -/
def line_piece_landed : BlockPiece :=
  { shape := [⟨-1, 0⟩, ⟨0, 0⟩, ⟨1, 0⟩, ⟨2, 0⟩], position := ⟨5, 0⟩, rotation := 0, type := 3 }

/-- The board whose only set cells are (4,0), (5,0), (6,0), (7,0). -/
def line_landed_board : Bitset := 2 ^ 4 + 2 ^ 5 + 2 ^ 6 + 2 ^ 7

/-- A session whose current piece, a single cell, rests at column 0, row 0 and whose
board has the cell (5,13) of the spawn point set; the single-cell archetype is queued. -/
def blocked_spawn_session : Session :=
  { screen := 2 ^ 135, image := 1, score := 0, running := true, level := 1,
    current_piece := dot_piece 0 0, next_piece := spawn_new_piece 1 }

/-! ## Checked bitset accesses

The functions of this section repeat the functions above that index a bitset, with every
access checked: an access at an index outside `[0, MAX_SQUARE)` makes the result `none`
(thrown `std::out_of_range`, or undefined behaviour for `operator[]`). -/

/-- Checked `bitset::test(index)` and read `screen[index]`. -/
def Bitset.test_checked (b : Bitset) (index : Int) : Option Bool :=
  if Bitset.in_range index then some (Nat.testBit b index.toNat) else none

/-- Checked `bitset::set(index)`. -/
def Bitset.set_checked (b : Bitset) (index : Int) : Option Bitset :=
  if Bitset.in_range index then some (b ||| (1 <<< index.toNat)) else none

/-- Checked `bitset::reset(index)`. -/
def Bitset.reset_checked (b : Bitset) (index : Int) : Option Bitset :=
  if Bitset.in_range index then some (b ^^^ (b &&& (1 <<< index.toNat))) else none

/-- Checked write `screen[index] = value`. -/
def Bitset.assign_checked (b : Bitset) (index : Int) (value : Bool) : Option Bitset :=
  if value then Bitset.set_checked b index else Bitset.reset_checked b index

/-- A loop over the values `xs` whose body can fail: the first failure ends it. -/
def fold_checked {σ α : Type} (f : σ → α → Option σ) : σ → List α → Option σ
  | s, [] => some s
  | s, a :: rest =>
    match f s a with
    | none => none
    | some s' => fold_checked f s' rest

/-- The loop of `can_move_piece` with the access `screen.test` checked; the test is
evaluated only after `is_valid_position` and `pos.row < ROW` hold. -/
def can_move_loop_checked (screen : Bitset) : List Point → Option Bool
  | [] => some true
  | pos :: rest =>
    if !is_valid_position pos.col pos.row then some false
    else if pos.row < ROW then
      match Bitset.test_checked screen (pos.row * COL + pos.col) with
      | none => none
      | some true => some false
      | some false => can_move_loop_checked screen rest
    else can_move_loop_checked screen rest

/-- Checked `can_move_piece`. -/
def can_move_piece_checked (piece : BlockPiece) (screen : Bitset) : Option Bool :=
  can_move_loop_checked screen piece.get_absolute_positions

/-- Checked `mark_point_on_img`. -/
def mark_point_on_img_checked (pt : Point) (image : Bitset) : Option Bitset :=
  if is_valid_position pt.col pt.row then
    let index := pt.row * COL + pt.col
    Bitset.set_checked image index
  else some image

/-- Checked `create_image`. -/
def create_image_checked (piece : BlockPiece) : Option Bitset :=
  fold_checked (fun image pos => mark_point_on_img_checked pos image) Bitset.empty
    piece.get_absolute_positions

/-- The test loop of `check_for_score` for one row over the remaining columns, with the
access checked; the loop ends (`break`) at the first cell that is not set. -/
def full_line_loop_checked (screen : Bitset) (row : Int) : List Int → Option Bool
  | [] => some true
  | col :: rest =>
    match Bitset.test_checked screen (row * COL + col) with
    | none => none
    | some false => some false
    | some true => full_line_loop_checked screen row rest

/-- Checked test loop of `check_for_score` for one row. -/
def full_line_checked (screen : Bitset) (row : Int) : Option Bool :=
  full_line_loop_checked screen row (int_range 0 COL)

/-- Checked loop "Clear the line" of `check_for_score`. -/
def clear_line_checked (screen : Bitset) (row : Int) : Option Bitset :=
  fold_checked (fun screen col => Bitset.reset_checked screen (row * COL + col)) screen
    (int_range 0 COL)

/-- Checked body of the loop "Move all lines above down by one" for one `move_row`. -/
def move_row_down_checked (screen : Bitset) (move_row : Int) : Option Bitset :=
  fold_checked
    (fun screen col =>
      let from_idx := move_row * COL + col
      let to_idx := (move_row - 1) * COL + col
      match Bitset.test_checked screen from_idx with
      | none => none
      | some value =>
        match Bitset.assign_checked screen to_idx value with
        | none => none
        | some assigned => Bitset.assign_checked assigned from_idx false)
    screen (int_range 0 COL)

/-- Checked loop "Move all lines above down by one" of `check_for_score`. -/
def move_lines_down_checked (screen : Bitset) (row : Int) : Option Bitset :=
  fold_checked move_row_down_checked screen (int_range (row + 1) ROW)

/-- The row loop of `check_for_score` with every access checked: `none` when the fuel
runs out, `some none` when an access is out of range, `some (some r)` for the result. -/
def check_rows_checked : Nat → Int → Bitset → Nat → Option (Option (Bitset × Nat))
  | 0, _, _, _ => none
  | fuel + 1, row, screen, lines_cleared =>
    if row < ROW then
      match full_line_checked screen row with
      | none => some none
      | some true =>
        match clear_line_checked screen row with
        | none => some none
        | some cleared =>
          match move_lines_down_checked cleared row with
          | none => some none
          | some moved => check_rows_checked fuel ((row - 1) + 1) moved (lines_cleared + 1)
      | some false => check_rows_checked fuel (row + 1) screen lines_cleared
    else some (some (screen, lines_cleared))

/-- Checked `check_for_score`: `none` when the fuel runs out, `some none` when an access
is out of range, `some (some (screen, score))` for the result. -/
def check_for_score_checked (fuel : Nat) (screen : Bitset) (score : Nat) :
    Option (Option (Bitset × Nat)) :=
  match check_rows_checked fuel 0 screen 0 with
  | none => none
  | some none => some none
  | some (some (screen, lines_cleared)) =>
    if lines_cleared > 0 then
      some (some (screen, (score + lines_cleared * lines_cleared * 100) % 2 ^ 32))
    else some (some (screen, score))

/-! ## Properties of the bitset operations -/

theorem Bitset.in_range_iff (index : Int) :
    Bitset.in_range index = true ↔ 0 ≤ index ∧ index < 150 := by
  simp [Bitset.in_range, MAX_SQUARE, ROW, COL]

theorem Bitset.test_empty (index : Int) : Bitset.test Bitset.empty index = false := by
  simp [Bitset.test, Bitset.empty]

theorem Bitset.test_or (a b : Bitset) (index : Int) :
    Bitset.test (a ||| b) index = (Bitset.test a index || Bitset.test b index) := by
  unfold Bitset.test
  cases Bitset.in_range index <;> simp

theorem Bitset.test_set (b : Bitset) (i j : Int) :
    Bitset.test (Bitset.set b i) j
      = (Bitset.test b j || (Bitset.in_range i && decide (i = j))) := by
  unfold Bitset.test Bitset.set
  by_cases hi : Bitset.in_range i = true
  · by_cases hj : Bitset.in_range j = true
    · have hi' := (Bitset.in_range_iff i).1 hi
      have hj' := (Bitset.in_range_iff j).1 hj
      have hij : (i.toNat = j.toNat) ↔ i = j := by omega
      simp [hi, hj, Nat.one_shiftLeft, Nat.testBit_two_pow, hij]
    · have hne : i ≠ j := fun h => hj (h ▸ hi)
      simp [hi, hj, hne]
  · simp [hi]

theorem Bitset.test_reset (b : Bitset) (i j : Int) :
    Bitset.test (Bitset.reset b i) j = (Bitset.test b j && !decide (i = j)) := by
  unfold Bitset.test Bitset.reset
  by_cases hi : Bitset.in_range i = true
  · by_cases hj : Bitset.in_range j = true
    · have hi' := (Bitset.in_range_iff i).1 hi
      have hj' := (Bitset.in_range_iff j).1 hj
      have hij : (i.toNat = j.toNat) ↔ i = j := by omega
      by_cases h : i = j
      · subst h
        simp [hi, Nat.one_shiftLeft, Nat.testBit_two_pow]
      · have h' : ¬ i.toNat = j.toNat := fun e => h (hij.1 e)
        simp [hi, hj, Nat.one_shiftLeft, Nat.testBit_two_pow, h, h']
    · simp [hi, hj]
  · by_cases h : i = j
    · subst h
      simp [hi]
    · simp [hi, h]

theorem Bitset.test_assign (b : Bitset) (i j : Int) (value : Bool) :
    Bitset.test (Bitset.assign b i value) j
      = if i = j then (Bitset.in_range i && value) else Bitset.test b j := by
  unfold Bitset.assign
  by_cases h : i = j
  · subst h
    cases value
    · simp [Bitset.test_reset]
    · by_cases hi : Bitset.in_range i = true
      · simp [Bitset.test_set, hi]
      · simp [Bitset.test_set, hi, Bitset.test]
  · cases value <;> simp [Bitset.test_reset, Bitset.test_set, h]

/-! ## Properties of the loop ranges -/

theorem int_range_of_le (lo hi : Int) (h : hi ≤ lo) : int_range lo hi = [] := by
  have : (hi - lo).toNat = 0 := by omega
  simp [int_range, this]

theorem int_range_cons (lo hi : Int) (h : lo < hi) :
    int_range lo hi = lo :: int_range (lo + 1) hi := by
  have e : (hi - lo).toNat = (hi - (lo + 1)).toNat + 1 := by omega
  unfold int_range
  rw [e, List.range_succ_eq_map]
  simp only [List.map_cons, List.map_map]
  congr 1
  · simp
  · apply List.map_congr_left
    intro k _
    simp only [Function.comp, Nat.succ_eq_add_one, Nat.cast_add, Nat.cast_one]
    omega

theorem mem_int_range (lo hi i : Int) : i ∈ int_range lo hi ↔ lo ≤ i ∧ i < hi := by
  unfold int_range
  simp only [List.mem_map, List.mem_range]
  constructor
  · rintro ⟨k, hk, rfl⟩
    omega
  · rintro ⟨h1, h2⟩
    exact ⟨(i - lo).toNat, by omega, by omega⟩

theorem int_range_nodup (lo hi : Int) : (int_range lo hi).Nodup := by
  unfold int_range
  refine List.Nodup.map ?_ (List.nodup_range _)
  intro a b h
  simpa using h

theorem int_range_length (lo hi : Int) : (int_range lo hi).length = (hi - lo).toNat := by
  simp [int_range]

/-! ## Properties of the collision test -/

theorem is_valid_position_iff (col row : Int) :
    is_valid_position col row = true ↔ 0 ≤ col ∧ col < 10 ∧ 0 ≤ row ∧ row < 15 := by
  simp [is_valid_position, ROW, COL, and_assoc]

theorem in_range_of_valid (col row : Int) (h : is_valid_position col row = true) :
    Bitset.in_range (row * COL + col) = true := by
  rw [is_valid_position_iff] at h
  rw [Bitset.in_range_iff]
  simp only [COL]
  omega

/-- The loop of `can_move_piece` accepts exactly the lists of positions that are all
inside the board and all free on the screen. -/
theorem can_move_loop_iff (screen : Bitset) (positions : List Point) :
    can_move_loop screen positions = true ↔
      ∀ pos ∈ positions, is_valid_position pos.col pos.row = true ∧
        Bitset.test screen (pos.row * COL + pos.col) = false := by
  induction positions with
  | nil => simp [can_move_loop]
  | cons pos rest ih =>
    unfold can_move_loop
    by_cases hv : is_valid_position pos.col pos.row = true
    · have hr : pos.row < ROW := by
        have := (is_valid_position_iff _ _).1 hv
        simp only [ROW]; omega
      by_cases ht : Bitset.test screen (pos.row * COL + pos.col) = true
      · simp [hv, ht, hr]
      · simp only [Bool.not_eq_true] at ht
        simp [hv, ht, ih]
    · simp [hv]

theorem can_move_piece_iff (piece : BlockPiece) (screen : Bitset) :
    can_move_piece piece screen = true ↔
      ∀ pos ∈ piece.get_absolute_positions, is_valid_position pos.col pos.row = true ∧
        Bitset.test screen (pos.row * COL + pos.col) = false :=
  can_move_loop_iff screen _

/-! ## The claims -/

/-- C1: for every board and piece, `can_move_piece` returns false if some cell of the
piece has its column outside `[0, COL)` or its row below 0; and whenever it returns true,
no cell of the piece with row in `[0, ROW)` is set on the board. -/
theorem can_move_piece_bounds_and_overlap (piece : BlockPiece) (screen : Bitset) :
    ((∃ pos ∈ piece.get_absolute_positions, pos.col < 0 ∨ COL ≤ pos.col ∨ pos.row < 0) →
        can_move_piece piece screen = false) ∧
    (can_move_piece piece screen = true →
        ∀ pos ∈ piece.get_absolute_positions, 0 ≤ pos.row → pos.row < ROW →
          Bitset.test screen (pos.row * COL + pos.col) = false) := by
  constructor
  · rintro ⟨pos, hmem, hout⟩
    rw [← Bool.not_eq_true, can_move_piece_iff]
    intro h
    have hv := (is_valid_position_iff _ _).1 (h pos hmem).1
    simp only [COL] at hout
    omega
  · intro h pos hmem _ _
    exact ((can_move_piece_iff piece screen).1 h pos hmem).2

/-- Witness of C1: the single cell at column -1 is rejected on the empty board, and the
accepted single cell at column 5, row 3 is free on a board whose cell (0,0) is set. -/
theorem can_move_piece_bounds_and_overlap_witness :
    can_move_piece { shape := [⟨0, 0⟩], position := ⟨-1, 0⟩, rotation := 0, type := 1 }
        Bitset.empty = false ∧
    (∀ pos ∈ BlockPiece.get_absolute_positions
        { shape := [⟨0, 0⟩], position := ⟨5, 3⟩, rotation := 0, type := 1 },
        0 ≤ pos.row → pos.row < ROW → Bitset.test 1 (pos.row * COL + pos.col) = false) :=
  ⟨(can_move_piece_bounds_and_overlap
      { shape := [⟨0, 0⟩], position := ⟨-1, 0⟩, rotation := 0, type := 1 } Bitset.empty).1
      ⟨⟨-1, 0⟩, by decide, by decide⟩,
   (can_move_piece_bounds_and_overlap
      { shape := [⟨0, 0⟩], position := ⟨5, 3⟩, rotation := 0, type := 1 } 1).2 (by decide)⟩

/-- The single-cell piece at column 5, row 15 has its cell in a column of `[0, COL)` and in
a row `>= 0`, no cell of it lies in a row below `ROW`, the board is empty, and
`can_move_piece` returns false. -/
theorem can_move_piece_rejects_row_above_top :
    (∀ pos ∈ BlockPiece.get_absolute_positions
        { shape := [⟨0, 0⟩], position := ⟨5, 15⟩, rotation := 0, type := 1 },
        0 ≤ pos.col ∧ pos.col < COL ∧ 0 ≤ pos.row ∧
          (pos.row < ROW → Bitset.test Bitset.empty (pos.row * COL + pos.col) = false)) ∧
    can_move_piece { shape := [⟨0, 0⟩], position := ⟨5, 15⟩, rotation := 0, type := 1 }
        Bitset.empty = false := by
  decide

/-- What `can_move_piece` computes on the code: for every board and every piece whose
cells all have their column in `[0, COL)` and their row in `[0, ROW)` and are all
unoccupied on the board, it returns true; and on a piece with a cell in a row `>= ROW` it
returns false. -/
theorem can_move_piece_accepts_inside_free (piece : BlockPiece) (screen : Bitset) :
    ((∀ pos ∈ piece.get_absolute_positions,
        0 ≤ pos.col ∧ pos.col < COL ∧ 0 ≤ pos.row ∧ pos.row < ROW ∧
          Bitset.test screen (pos.row * COL + pos.col) = false) →
      can_move_piece piece screen = true) ∧
    ((∃ pos ∈ piece.get_absolute_positions, ROW ≤ pos.row) →
      can_move_piece piece screen = false) := by
  constructor
  · intro h
    rw [can_move_piece_iff]
    intro pos hmem
    obtain ⟨h1, h2, h3, h4, h5⟩ := h pos hmem
    simp only [ROW, COL] at h2 h4
    exact ⟨(is_valid_position_iff _ _).2 ⟨h1, h2, h3, h4⟩, h5⟩
  · rintro ⟨pos, hmem, hout⟩
    rw [← Bool.not_eq_true, can_move_piece_iff]
    intro h
    have hv := (is_valid_position_iff _ _).1 (h pos hmem).1
    simp only [ROW] at hout
    omega

/-- Instances of `can_move_piece_accepts_inside_free`: the single cell at column 5, row 14
is accepted on the empty board, and the single cell at column 5, row 15 is rejected. -/
theorem can_move_piece_accepts_inside_free_witness :
    can_move_piece { shape := [⟨0, 0⟩], position := ⟨5, 14⟩, rotation := 0, type := 1 }
        Bitset.empty = true ∧
    can_move_piece { shape := [⟨0, 0⟩], position := ⟨5, 15⟩, rotation := 0, type := 1 }
        Bitset.empty = false :=
  ⟨(can_move_piece_accepts_inside_free
      { shape := [⟨0, 0⟩], position := ⟨5, 14⟩, rotation := 0, type := 1 } Bitset.empty).1
      (by decide),
   (can_move_piece_accepts_inside_free
      { shape := [⟨0, 0⟩], position := ⟨5, 15⟩, rotation := 0, type := 1 } Bitset.empty).2
      ⟨⟨5, 15⟩, by decide, by decide⟩⟩

/-- C2 fails on the code: the 4-in-line archetype at the spawn point with rotation 1 has
the cells (5,12), (5,13), (5,14), (5,15); each of them has its column in `[0, COL)` and its
row `>= 0`, and those in a row below `ROW` are unoccupied on the empty board, yet
`can_move_piece` returns false: `is_valid_position` rejects row 15 before the test
`pos.row < ROW &&` of `can_move_piece` is reached.  So `block_rotate` of that archetype at
the spawn point on the empty board does not commit the plain rotation but the kick
`(-1,-1)`, to column 4, row 12.  The image of the piece above the top has three bits:
`mark_point_on_img` skips the cell (5,15). -/
theorem can_move_piece_rejects_cell_above_top :
    BlockPiece.get_absolute_positions { line_piece_at_spawn with rotation := 1 }
      = [⟨5, 12⟩, ⟨5, 13⟩, ⟨5, 14⟩, ⟨5, 15⟩] ∧
    (∀ pos ∈ BlockPiece.get_absolute_positions { line_piece_at_spawn with rotation := 1 },
      0 ≤ pos.col ∧ pos.col < COL ∧ 0 ≤ pos.row ∧
        (pos.row < ROW → Bitset.test Bitset.empty (pos.row * COL + pos.col) = false)) ∧
    can_move_piece { line_piece_at_spawn with rotation := 1 } Bitset.empty = false ∧
    can_move_piece line_piece_at_spawn Bitset.empty = true ∧
    (block_rotate Bitset.empty line_piece_at_spawn (create_image line_piece_at_spawn)).1
      = true ∧
    (block_rotate Bitset.empty line_piece_at_spawn
      (create_image line_piece_at_spawn)).2.piece
      = { line_piece_at_spawn with position := ⟨4, 12⟩, rotation := 1 } ∧
    Bitset.count (create_image { line_piece_at_spawn with rotation := 1 }) = 3 := by
  decide

/-! ## Properties of the line clearer -/

theorem full_line_eq (screen : Bitset) (row : Int) :
    full_line screen row = row_is_full (board_row screen row) := by
  unfold full_line row_is_full board_row
  induction int_range 0 COL with
  | nil => rfl
  | cons col rest ih => simp only [List.all_cons, List.map_cons, ih, id]

theorem test_foldl_reset (f : Int → Int) (cols : List Int) (screen : Bitset) (j : Int) :
    Bitset.test (cols.foldl (fun screen col => Bitset.reset screen (f col)) screen) j
      = (Bitset.test screen j && cols.all (fun col => !decide (f col = j))) := by
  induction cols generalizing screen with
  | nil => simp
  | cons col rest ih =>
    simp only [List.foldl_cons, ih, Bitset.test_reset, List.all_cons, Bool.and_assoc]

theorem test_clear_line (screen : Bitset) (row k c : Int) (hc : 0 ≤ c ∧ c < 10) :
    Bitset.test (clear_line screen row) (k * COL + c)
      = if k = row then false else Bitset.test screen (k * COL + c) := by
  unfold clear_line
  rw [test_foldl_reset (fun col => row * COL + col)]
  by_cases h : k = row
  · subst h
    have : (int_range 0 COL).all (fun col => !decide (k * COL + col = k * COL + c)) = false := by
      rw [List.all_eq_false]
      exact ⟨c, (mem_int_range _ _ _).2 (by simpa [COL] using hc), by simp⟩
    rw [this]
    simp
  · have : (int_range 0 COL).all (fun col => !decide (row * COL + col = k * COL + c)) = true := by
      rw [List.all_eq_true]
      intro col hcol
      have hcol' := (mem_int_range _ _ _).1 hcol
      simp only [COL] at hcol' ⊢
      have : ¬ (row * 10 + col = k * 10 + c) := by omega
      simp [this]
    rw [this]
    simp [h]

/-- One step of the column loop of `move_row_down`. -/
theorem test_move_step (screen : Bitset) (m col j : Int) (hm : 1 ≤ m ∧ m < 15)
    (hcol : 0 ≤ col ∧ col < 10) :
    Bitset.test
        (Bitset.assign
          (Bitset.assign screen ((m - 1) * COL + col) (Bitset.test screen (m * COL + col)))
          (m * COL + col) false) j
      = if m * COL + col = j then false
        else if (m - 1) * COL + col = j then Bitset.test screen (m * COL + col)
        else Bitset.test screen j := by
  have hin : Bitset.in_range ((m - 1) * COL + col) = true := by
    rw [Bitset.in_range_iff]
    simp only [COL]
    omega
  simp [Bitset.test_assign, hin]

theorem test_move_cols (m : Int) (hm : 1 ≤ m ∧ m < 15) (cols : List Int)
    (hnd : cols.Nodup) (hcols : ∀ col ∈ cols, 0 ≤ col ∧ col < 10) (screen : Bitset)
    (k c : Int) (hc : 0 ≤ c ∧ c < 10) :
    Bitset.test
        (cols.foldl
          (fun screen col =>
            let from_idx := m * COL + col
            let to_idx := (m - 1) * COL + col
            Bitset.assign (Bitset.assign screen to_idx (Bitset.test screen from_idx))
              from_idx false)
          screen) (k * COL + c)
      = if c ∈ cols then
          (if k = m - 1 then Bitset.test screen (m * COL + c)
           else if k = m then false else Bitset.test screen (k * COL + c))
        else Bitset.test screen (k * COL + c) := by
  induction cols generalizing screen with
  | nil => simp
  | cons col rest ih =>
    have hcol := hcols col (List.mem_cons_self _ _)
    have hnd' := (List.nodup_cons.1 hnd)
    rw [List.foldl_cons, ih hnd'.2 (fun x hx => hcols x (List.mem_cons_of_mem _ hx))]
    simp only [test_move_step _ m col _ hm hcol]
    by_cases hcr : c ∈ rest
    · have hne : c ≠ col := fun e => hnd'.1 (e ▸ hcr)
      have e1 : ¬ (m * COL + col = m * COL + c) := by simp only [COL]; omega
      have e2 : ¬ ((m - 1) * COL + col = m * COL + c) := by simp only [COL]; omega
      have e3 : ¬ (m * COL + col = k * COL + c) := by simp only [COL]; omega
      have e4 : ¬ ((m - 1) * COL + col = k * COL + c) := by simp only [COL]; omega
      simp [hcr, e1, e2, e3, e4]
    · by_cases hcc : c = col
      · subst hcc
        by_cases hk1 : k = m - 1
        · subst hk1
          have e3 : ¬ (m * COL + c = (m - 1) * COL + c) := by simp only [COL]; omega
          simp [hcr, e3]
        · by_cases hk2 : k = m
          · subst hk2
            simp [hcr, hk1]
          · have e3 : ¬ (m * COL + c = k * COL + c) := by simp only [COL]; omega
            have e4 : ¬ ((m - 1) * COL + c = k * COL + c) := by simp only [COL]; omega
            simp [hcr, hk1, hk2, e3, e4]
      · have e3 : ¬ (m * COL + col = k * COL + c) := by simp only [COL]; omega
        have e4 : ¬ ((m - 1) * COL + col = k * COL + c) := by simp only [COL]; omega
        have hcc' : ¬ (c = col ∨ c ∈ rest) := by tauto
        simp [hcr, hcc, e3, e4]

theorem test_move_row_down (screen : Bitset) (m : Int) (hm : 1 ≤ m ∧ m < 15)
    (k c : Int) (hc : 0 ≤ c ∧ c < 10) :
    Bitset.test (move_row_down screen m) (k * COL + c)
      = if k = m - 1 then Bitset.test screen (m * COL + c)
        else if k = m then false else Bitset.test screen (k * COL + c) := by
  unfold move_row_down
  rw [test_move_cols m hm _ (int_range_nodup _ _)
    (fun col h => by simpa [COL] using (mem_int_range _ _ _).1 h) screen k c hc]
  have : c ∈ int_range 0 COL := (mem_int_range _ _ _).2 (by simpa [COL] using hc)
  simp [this]

theorem test_move_lines_fold (n : Nat) :
    ∀ (a : Int) (screen : Bitset), 1 ≤ a → a + n = 15 →
    ∀ k c : Int, 0 ≤ k ∧ k < 15 → 0 ≤ c ∧ c < 10 →
    Bitset.test ((int_range a ROW).foldl move_row_down screen) (k * COL + c)
      = if k < a - 1 then Bitset.test screen (k * COL + c)
        else if k = 14 then (if a = 15 then Bitset.test screen (k * COL + c) else false)
        else Bitset.test screen ((k + 1) * COL + c) := by
  induction n with
  | zero =>
    intro a screen ha han k c hk hc
    have h15 : a = 15 := by omega
    subst h15
    rw [int_range_of_le _ _ (by simp [ROW]), List.foldl_nil]
    split_ifs <;> first | rfl | (exfalso; omega)
  | succ n ih =>
    intro a screen ha han k c hk hc
    have ha15 : a < 15 := by omega
    rw [int_range_cons _ _ (by simpa [ROW] using ha15), List.foldl_cons,
      ih (a + 1) (move_row_down screen a) (by omega) (by push_cast at han ⊢; omega) k c hk hc]
    simp only [test_move_row_down screen a ⟨ha, ha15⟩ _ c hc]
    simp only [COL]
    split_ifs <;> first | rfl | (exfalso; omega) | (congr 1; omega)

/-- The board after one cleared line: the rows below the line are kept, every row from
the line on holds the row that was above it, and the top row is empty. -/
theorem board_row_after_clear (screen : Bitset) (r : Int) (hr : 0 ≤ r ∧ r < 15)
    (k : Int) (hk : 0 ≤ k ∧ k < 15) :
    board_row (move_lines_down (clear_line screen r) r) k
      = if k < r then board_row screen k
        else if k = 14 then empty_row else board_row screen (k + 1) := by
  have key : ∀ c : Int, 0 ≤ c ∧ c < 10 →
      Bitset.test (move_lines_down (clear_line screen r) r) (k * COL + c)
        = if k < r then Bitset.test screen (k * COL + c)
          else if k = 14 then false else Bitset.test screen ((k + 1) * COL + c) := by
    intro c hc
    unfold move_lines_down
    rw [test_move_lines_fold (14 - r).toNat (r + 1) _ (by omega) (by omega) k c hk hc]
    simp only [test_clear_line _ _ _ _ hc]
    simp only [COL]
    split_ifs <;> first | rfl | (exfalso; omega)
  unfold board_row
  by_cases h : k < r
  · rw [if_pos h]
    apply List.map_congr_left
    intro c hc
    rw [key c (by simpa [COL] using (mem_int_range _ _ _).1 hc), if_pos h]
  · rw [if_neg h]
    by_cases h' : k = 14
    · rw [if_pos h']
      have e : empty_row = (int_range 0 COL).map (fun _ => false) := by
        simp [empty_row, int_range, COL]
      rw [e]
      apply List.map_congr_left
      intro c hc
      rw [key c (by simpa [COL] using (mem_int_range _ _ _).1 hc), if_neg h, if_pos h']
    · rw [if_neg h']
      apply List.map_congr_left
      intro c hc
      rw [key c (by simpa [COL] using (mem_int_range _ _ _).1 hc), if_neg h, if_neg h']

theorem board_rows_length (screen : Bitset) : (board_rows screen).length = 15 := by
  simp [board_rows, int_range_length, ROW]

theorem board_rows_getElem? (screen : Bitset) (k : Nat) :
    (board_rows screen)[k]? = if k < 15 then some (board_row screen (k : Int)) else none := by
  unfold board_rows int_range
  by_cases hk : k < 15
  · simp [List.getElem?_map, List.getElem?_range, hk, ROW]
  · simp [List.getElem?_map, hk, ROW]
    omega

theorem row_is_full_empty_row : row_is_full empty_row = false := by decide

/-- The rows of the board after one cleared line, when the cleared row is the one that
follows the rows `pre`. -/
theorem board_rows_after_clear (screen : Bitset) (pre post : List (List Bool))
    (x : List Bool) (h : board_rows screen = pre ++ x :: post) :
    board_rows (move_lines_down (clear_line screen pre.length) pre.length)
      = pre ++ (post ++ [empty_row]) := by
  have hlen : pre.length + post.length + 1 = 15 := by
    have := congrArg List.length h
    simp [board_rows_length] at this
    omega
  have hget : ∀ j : Nat, j < 15 → (pre ++ x :: post)[j]? = some (board_row screen (j : Int)) := by
    intro j hj
    rw [← h, board_rows_getElem?, if_pos hj]
  apply List.ext_getElem?
  intro k
  rw [board_rows_getElem?]
  by_cases hk : k < 15
  · rw [if_pos hk, board_row_after_clear screen pre.length (by omega) k (by omega)]
    by_cases h1 : k < pre.length
    · rw [if_pos (by exact_mod_cast h1), List.getElem?_append_left h1, ← hget k hk,
        List.getElem?_append_left h1]
    · rw [if_neg (by exact_mod_cast h1), List.getElem?_append_right (by omega)]
      by_cases h2 : k = 14
      · rw [if_pos (by exact_mod_cast h2), List.getElem?_append_right (by omega)]
        have : k - pre.length - post.length = 0 := by omega
        simp [this]
      · rw [if_neg (by exact_mod_cast h2), List.getElem?_append_left (by omega)]
        have e := hget (k + 1) (by omega)
        rw [List.getElem?_append_right (by omega)] at e
        have e2 : k + 1 - pre.length = (k - pre.length) + 1 := by omega
        rw [e2, List.getElem?_cons_succ] at e
        rw [e]
        push_cast
        rfl
  · rw [if_neg hk]
    symm
    rw [List.getElem?_eq_none_iff]
    simp
    omega

theorem compacted_rows_cons_full (x : List Bool) (post : List (List Bool))
    (hx : row_is_full x = true) :
    compacted_rows (post ++ [empty_row]) = compacted_rows (x :: post) := by
  unfold compacted_rows
  simp [hx, row_is_full_empty_row, List.replicate_succ]

theorem compacted_rows_cons_not_full (x : List Bool) (post : List (List Bool))
    (hx : row_is_full x = false) :
    compacted_rows (x :: post) = x :: compacted_rows post := by
  unfold compacted_rows
  simp [hx]

/-- The row loop of `check_for_score`, started after the rows `pre` with the rows `post`
still to examine: with enough fuel it returns, the rows `pre` are kept, the rows `post`
are compacted, and every full row of `post` is counted once. -/
theorem check_rows_spec : ∀ (fuel : Nat) (post pre : List (List Bool)) (screen : Bitset)
    (lines : Nat), board_rows screen = pre ++ post →
    post.length + post.countP row_is_full + 1 ≤ fuel →
    ∃ screen', check_rows fuel pre.length screen lines
        = some (screen', lines + post.countP row_is_full) ∧
      board_rows screen' = pre ++ compacted_rows post := by
  intro fuel
  induction fuel with
  | zero =>
    intro post pre screen lines _ hf
    omega
  | succ fuel ih =>
    intro post pre screen lines h hf
    have hlen : pre.length + post.length = 15 := by
      have := congrArg List.length h
      simp [board_rows_length] at this
      omega
    cases post with
    | nil =>
      refine ⟨screen, ?_, ?_⟩
      · have : ¬ ((pre.length : Int) < ROW) := by
          simp only [ROW, List.length_nil] at hlen ⊢
          omega
        simp [check_rows, this]
      · simpa [compacted_rows] using h
    | cons x post =>
      simp only [List.length_cons] at hlen hf
      have hrow : (pre.length : Int) < ROW := by
        simp only [ROW]
        omega
      have hx : board_row screen (pre.length : Int) = x := by
        have e := board_rows_getElem? screen pre.length
        rw [if_pos (by omega), h, List.getElem?_append_right (le_refl _)] at e
        simpa using e.symm
      unfold check_rows
      rw [if_pos hrow, full_line_eq, hx]
      by_cases hfull : row_is_full x = true
      · rw [if_pos hfull]
        have hf' : (post ++ [empty_row]).length
            + (post ++ [empty_row]).countP row_is_full + 1 ≤ fuel := by
          simp [List.countP_cons, hfull, row_is_full_empty_row] at hf ⊢
          omega
        obtain ⟨screen', h1, h2⟩ := ih (post ++ [empty_row]) pre _ (lines + 1)
          (board_rows_after_clear screen pre post x h) hf'
        refine ⟨screen', ?_, ?_⟩
        · rw [sub_add_cancel, h1]
          simp [List.countP_cons, hfull, row_is_full_empty_row]
          omega
        · rw [h2, compacted_rows_cons_full x post hfull]
      · simp only [Bool.not_eq_true] at hfull
        rw [if_neg (by simp [hfull])]
        have hf' : post.length + post.countP row_is_full + 1 ≤ fuel := by
          simp [List.countP_cons, hfull] at hf
          omega
        obtain ⟨screen', h1, h2⟩ := ih post (pre ++ [x]) screen lines (by simpa using h) hf'
        refine ⟨screen', ?_, ?_⟩
        · have e : (((pre ++ [x]).length : Nat) : Int) = (pre.length : Int) + 1 := by
            simp
          rw [e] at h1
          rw [h1]
          simp [List.countP_cons, hfull]
        · rw [h2, compacted_rows_cons_not_full x post hfull]
          simp

theorem full_row_count_le (screen : Bitset) : full_row_count screen ≤ 15 := by
  unfold full_row_count
  have h : (board_rows screen).countP row_is_full ≤ (board_rows screen).length :=
    List.countP_le_length _
  rw [board_rows_length] at h
  exact h

/-- The row loop of `check_for_score` from row 0 with 31 units of fuel or more. -/
theorem check_rows_from_zero (fuel : Nat) (hfuel : 31 ≤ fuel) (screen : Bitset) :
    ∃ screen', check_rows fuel 0 screen 0 = some (screen', full_row_count screen) ∧
      board_rows screen' = compacted_rows (board_rows screen) := by
  have hle := full_row_count_le screen
  have hlen := board_rows_length screen
  unfold full_row_count at hle
  obtain ⟨screen', h1, h2⟩ := check_rows_spec fuel (board_rows screen) [] screen 0
    (by simp) (by omega)
  refine ⟨screen', ?_, by simpa using h2⟩
  simpa [full_row_count] using h1

theorem board_rows_eq (screen : Bitset) :
    board_rows screen
      = [board_row screen 0, board_row screen 1, board_row screen 2, board_row screen 3,
         board_row screen 4, board_row screen 5, board_row screen 6, board_row screen 7,
         board_row screen 8, board_row screen 9, board_row screen 10, board_row screen 11,
         board_row screen 12, board_row screen 13, board_row screen 14] := by
  rfl

/-- The score update of `check_for_score` after its row loop. -/
theorem check_for_score_of_rows (fuel : Nat) (screen : Bitset) (score : Nat)
    (screen' : Bitset) (n : Nat) (h : check_rows fuel 0 screen 0 = some (screen', n)) :
    check_for_score fuel screen score
      = some (screen', if n > 0 then (score + n * n * 100) % 2 ^ 32 else score) := by
  unfold check_for_score
  rw [h]
  by_cases hn : n > 0
  · simp only [if_pos hn]
  · simp only [if_neg hn]

/-- C3: with enough fuel `check_for_score` returns; the rows of the board it leaves are the
non-full rows of the input board in their bottom-to-top order, packed from row 0 upward and
followed by all-empty rows, and the number of lines its row loop clears is the number of
full rows of the input board.  In particular, when rows 2 and 4 are full and no other row
is, 2 lines are cleared, rows 0 and 1 stay, old row 3 ends in row 2, every old row
`r >= 5` ends in row `r - 2`, and rows 13 and 14 end empty. -/
theorem check_for_score_compacts_rows (screen : Bitset) (score fuel : Nat)
    (hfuel : 31 ≤ fuel) :
    ∃ screen' score',
      check_for_score fuel screen score = some (screen', score') ∧
      check_rows fuel 0 screen 0 = some (screen', full_row_count screen) ∧
      board_rows screen' = compacted_rows (board_rows screen) ∧
      ((∀ r : Int, 0 ≤ r → r < ROW → (full_line screen r = true ↔ (r = 2 ∨ r = 4))) →
        full_row_count screen = 2 ∧
        board_row screen' 0 = board_row screen 0 ∧
        board_row screen' 1 = board_row screen 1 ∧
        board_row screen' 2 = board_row screen 3 ∧
        (∀ r : Int, 5 ≤ r → r < ROW → board_row screen' (r - 2) = board_row screen r) ∧
        board_row screen' 13 = empty_row ∧ board_row screen' 14 = empty_row) := by
  obtain ⟨screen', h1, h2⟩ := check_rows_from_zero fuel hfuel screen
  refine ⟨screen', _, check_for_score_of_rows fuel screen score screen' _ h1, h1, h2, ?_⟩
  intro hrows
  have hfull : ∀ r : Int, 0 ≤ r → r < ROW →
      row_is_full (board_row screen r) = decide (r = 2 ∨ r = 4) := by
    intro r hr0 hr1
    have := hrows r hr0 hr1
    rw [full_line_eq] at this
    by_cases hc : r = 2 ∨ r = 4
    · simp [hc, this.2 hc]
    · have hne : ¬ row_is_full (board_row screen r) = true := fun e => hc (this.1 e)
      simp only [Bool.not_eq_true] at hne
      simp [hc, hne]
  have f0 := hfull 0 (by decide) (by decide)
  have f1 := hfull 1 (by decide) (by decide)
  have f2 := hfull 2 (by decide) (by decide)
  have f3 := hfull 3 (by decide) (by decide)
  have f4 := hfull 4 (by decide) (by decide)
  have f5 := hfull 5 (by decide) (by decide)
  have f6 := hfull 6 (by decide) (by decide)
  have f7 := hfull 7 (by decide) (by decide)
  have f8 := hfull 8 (by decide) (by decide)
  have f9 := hfull 9 (by decide) (by decide)
  have f10 := hfull 10 (by decide) (by decide)
  have f11 := hfull 11 (by decide) (by decide)
  have f12 := hfull 12 (by decide) (by decide)
  have f13 := hfull 13 (by decide) (by decide)
  have f14 := hfull 14 (by decide) (by decide)
  simp only [show ((2 : Int) = 2 ∨ (2 : Int) = 4) = True by decide,
    show ((4 : Int) = 2 ∨ (4 : Int) = 4) = True by decide,
    show ((0 : Int) = 2 ∨ (0 : Int) = 4) = False by decide,
    show ((1 : Int) = 2 ∨ (1 : Int) = 4) = False by decide,
    show ((3 : Int) = 2 ∨ (3 : Int) = 4) = False by decide,
    show ((5 : Int) = 2 ∨ (5 : Int) = 4) = False by decide,
    show ((6 : Int) = 2 ∨ (6 : Int) = 4) = False by decide,
    show ((7 : Int) = 2 ∨ (7 : Int) = 4) = False by decide,
    show ((8 : Int) = 2 ∨ (8 : Int) = 4) = False by decide,
    show ((9 : Int) = 2 ∨ (9 : Int) = 4) = False by decide,
    show ((10 : Int) = 2 ∨ (10 : Int) = 4) = False by decide,
    show ((11 : Int) = 2 ∨ (11 : Int) = 4) = False by decide,
    show ((12 : Int) = 2 ∨ (12 : Int) = 4) = False by decide,
    show ((13 : Int) = 2 ∨ (13 : Int) = 4) = False by decide,
    show ((14 : Int) = 2 ∨ (14 : Int) = 4) = False by decide,
    decide_True, decide_False] at f0 f1 f2 f3 f4 f5 f6 f7 f8 f9 f10 f11 f12 f13 f14
  have hcount : full_row_count screen = 2 := by
    unfold full_row_count
    rw [board_rows_eq]
    simp [List.countP_cons, f0, f1, f2, f3, f4, f5, f6, f7, f8, f9, f10, f11, f12, f13, f14]
  have hcomp : compacted_rows (board_rows screen)
      = [board_row screen 0, board_row screen 1, board_row screen 3, board_row screen 5,
         board_row screen 6, board_row screen 7, board_row screen 8, board_row screen 9,
         board_row screen 10, board_row screen 11, board_row screen 12,
         board_row screen 13, board_row screen 14, empty_row, empty_row] := by
    unfold compacted_rows
    rw [board_rows_eq]
    simp [List.countP_cons, List.filter_cons, List.replicate_succ,
      f0, f1, f2, f3, f4, f5, f6, f7, f8, f9, f10, f11, f12, f13, f14]
  rw [hcomp, board_rows_eq screen'] at h2
  simp only [List.cons.injEq, and_true] at h2
  obtain ⟨e0, e1, e2, e3, e4, e5, e6, e7, e8, e9, e10, e11, e12, e13, e14⟩ := h2
  refine ⟨hcount, e0, e1, e2, ?_, e13, e14⟩
  intro r hr0 hr1
  simp only [ROW] at hr1
  interval_cases r
  · exact e3
  · exact e4
  · exact e5
  · exact e6
  · exact e7
  · exact e8
  · exact e9
  · exact e10
  · exact e11
  · exact e12

/-- Witness of C3: the board `two_full_rows_board` has exactly rows 2 and 4 full;
`check_for_score` with fuel 31 returns on it, clears 2 lines, moves old row 3 to row 2
and every old row `r >= 5` to row `r - 2`, and leaves rows 13 and 14 empty. -/
theorem check_for_score_compacts_rows_witness :
    ∃ screen' score',
      check_for_score 31 two_full_rows_board 5 = some (screen', score') ∧
      check_rows 31 0 two_full_rows_board 0 = some (screen', 2) ∧
      board_row screen' 2 = board_row two_full_rows_board 3 ∧
      (∀ r : Int, 5 ≤ r → r < ROW →
        board_row screen' (r - 2) = board_row two_full_rows_board r) ∧
      board_row screen' 13 = empty_row ∧ board_row screen' 14 = empty_row := by
  obtain ⟨screen', score', h1, h2, _, h4⟩ :=
    check_for_score_compacts_rows two_full_rows_board 5 31 (by decide)
  have hrows : ∀ r : Int, 0 ≤ r → r < ROW →
      (full_line two_full_rows_board r = true ↔ (r = 2 ∨ r = 4)) := by
    intro r h0 h1
    simp only [ROW] at h1
    interval_cases r <;> decide
  obtain ⟨e, _, _, e2, e3, e13, e14⟩ := h4 hrows
  rw [e] at h2
  exact ⟨screen', score', h1, h2, e2, e3, e13, e14⟩

/-- C4: with enough fuel `check_for_score` returns; on a 32-bit score it adds exactly
`n * n * 100` (modulo `2 ^ 32`), where `n` is the number of full rows of the input board:
nothing for `n = 0` (the score is unchanged), 100 for 1, 400 for 2, 900 for 3 and 1600
for 4. -/
theorem check_for_score_adds_square (screen : Bitset) (score fuel : Nat)
    (hfuel : 31 ≤ fuel) (hscore : score < 2 ^ 32) :
    ∃ screen',
      check_for_score fuel screen score
        = some (screen',
            (score + full_row_count screen * full_row_count screen * 100) % 2 ^ 32) ∧
      (full_row_count screen = 0 →
        check_for_score fuel screen score = some (screen', score)) ∧
      (full_row_count screen = 1 →
        check_for_score fuel screen score = some (screen', (score + 100) % 2 ^ 32)) ∧
      (full_row_count screen = 2 →
        check_for_score fuel screen score = some (screen', (score + 400) % 2 ^ 32)) ∧
      (full_row_count screen = 3 →
        check_for_score fuel screen score = some (screen', (score + 900) % 2 ^ 32)) ∧
      (full_row_count screen = 4 →
        check_for_score fuel screen score = some (screen', (score + 1600) % 2 ^ 32)) := by
  obtain ⟨screen', h1, _⟩ := check_rows_from_zero fuel hfuel screen
  have h := check_for_score_of_rows fuel screen score screen' _ h1
  have hmain : check_for_score fuel screen score
      = some (screen',
          (score + full_row_count screen * full_row_count screen * 100) % 2 ^ 32) := by
    rw [h]
    by_cases hn : full_row_count screen > 0
    · rw [if_pos hn]
    · have h0 : full_row_count screen = 0 := by omega
      rw [if_neg hn, h0, Nat.add_zero, Nat.mod_eq_of_lt hscore]
  refine ⟨screen', hmain, ?_, ?_, ?_, ?_, ?_⟩
  · intro h0
    rw [h, h0]
    simp
  all_goals
    intro hn
    rw [hmain, hn]

/-- Witness of C4: from the score 7, `check_for_score` with fuel 31 leaves the score 7
on the empty board and the scores 107, 407, 907 and 1607 on the boards whose 1, 2, 3 and
4 lowest rows are full. -/
theorem check_for_score_adds_square_witness :
    (∃ screen', check_for_score 31 (full_rows_board 0) 7 = some (screen', 7)) ∧
    (∃ screen', check_for_score 31 (full_rows_board 1) 7 = some (screen', 107)) ∧
    (∃ screen', check_for_score 31 (full_rows_board 2) 7 = some (screen', 407)) ∧
    (∃ screen', check_for_score 31 (full_rows_board 3) 7 = some (screen', 907)) ∧
    (∃ screen', check_for_score 31 (full_rows_board 4) 7 = some (screen', 1607)) := by
  obtain ⟨s0, _, h0, _, _, _, _⟩ :=
    check_for_score_adds_square (full_rows_board 0) 7 31 (by decide) (by decide)
  obtain ⟨s1, _, _, h1, _, _, _⟩ :=
    check_for_score_adds_square (full_rows_board 1) 7 31 (by decide) (by decide)
  obtain ⟨s2, _, _, _, h2, _, _⟩ :=
    check_for_score_adds_square (full_rows_board 2) 7 31 (by decide) (by decide)
  obtain ⟨s3, _, _, _, _, h3, _⟩ :=
    check_for_score_adds_square (full_rows_board 3) 7 31 (by decide) (by decide)
  obtain ⟨s4, _, _, _, _, _, h4⟩ :=
    check_for_score_adds_square (full_rows_board 4) 7 31 (by decide) (by decide)
  exact ⟨⟨s0, h0 (by decide)⟩, ⟨s1, h1 (by decide)⟩, ⟨s2, h2 (by decide)⟩,
    ⟨s3, h3 (by decide)⟩, ⟨s4, h4 (by decide)⟩⟩

/-! ## Properties of the fall -/

theorem block_fall_of_can (screen : Bitset) (piece : BlockPiece) (image : Bitset)
    (h : can_move_piece piece.lowered screen = true) :
    block_fall screen piece image
      = (true, { screen := screen, piece := piece.lowered,
                 image := create_image piece.lowered }) := by
  simp only [block_fall, h, if_true]

theorem block_fall_of_cannot (screen : Bitset) (piece : BlockPiece) (image : Bitset)
    (h : can_move_piece piece.lowered screen = false) :
    block_fall screen piece image
      = (false, { screen := screen ||| image, piece := piece, image := Bitset.empty }) := by
  simp only [block_fall, h, paste_image]
  rfl

/-- C5: for every board and every piece with `image = create_image piece`: if the piece
moved one row down passes `can_move_piece`, `block_fall` returns true, the row of the
piece is decreased by exactly 1 with column, rotation, type and shape unchanged, the board
is unchanged and the image is the image of the moved piece; otherwise `block_fall` returns
false, the piece is unchanged, the new board is the old board with every bit of the image
of the piece additionally set, and the image is empty. -/
theorem block_fall_moves_or_locks (screen : Bitset) (piece : BlockPiece) (image : Bitset)
    (himage : image = create_image piece) :
    (can_move_piece
        { piece with position := ⟨piece.position.col, piece.position.row - 1⟩ } screen = true →
      (block_fall screen piece image).1 = true ∧
      (block_fall screen piece image).2.piece.position.row = piece.position.row - 1 ∧
      (block_fall screen piece image).2.piece.position.col = piece.position.col ∧
      (block_fall screen piece image).2.piece.rotation = piece.rotation ∧
      (block_fall screen piece image).2.piece.type = piece.type ∧
      (block_fall screen piece image).2.piece.shape = piece.shape ∧
      (block_fall screen piece image).2.screen = screen ∧
      (block_fall screen piece image).2.image
        = create_image (block_fall screen piece image).2.piece) ∧
    (can_move_piece
        { piece with position := ⟨piece.position.col, piece.position.row - 1⟩ } screen = false →
      (block_fall screen piece image).1 = false ∧
      (block_fall screen piece image).2.piece = piece ∧
      (block_fall screen piece image).2.screen = screen ||| create_image piece ∧
      (∀ index : Int, Bitset.test (block_fall screen piece image).2.screen index
        = (Bitset.test screen index || Bitset.test (create_image piece) index)) ∧
      (block_fall screen piece image).2.image = Bitset.empty) := by
  subst himage
  constructor
  · intro h
    rw [block_fall_of_can screen piece _ h]
    exact ⟨rfl, rfl, rfl, rfl, rfl, rfl, rfl, rfl⟩
  · intro h
    rw [block_fall_of_cannot screen piece _ h]
    exact ⟨rfl, rfl, rfl, fun index => Bitset.test_or _ _ index, rfl⟩

/-- Witness of C5: on the empty board the single cell at column 5, row 3 falls to row 2,
and the single cell at column 5, row 0 is locked: the board becomes the bit 5. -/
theorem block_fall_moves_or_locks_witness :
    ((block_fall Bitset.empty (dot_piece 5 3) (create_image (dot_piece 5 3))).1 = true ∧
      (block_fall Bitset.empty (dot_piece 5 3)
        (create_image (dot_piece 5 3))).2.piece.position.row = 3 - 1) ∧
    ((block_fall Bitset.empty (dot_piece 5 0) (create_image (dot_piece 5 0))).1 = false ∧
      (block_fall Bitset.empty (dot_piece 5 0) (create_image (dot_piece 5 0))).2.screen
        = Bitset.empty ||| create_image (dot_piece 5 0)) := by
  have h1 := (block_fall_moves_or_locks Bitset.empty (dot_piece 5 3)
    (create_image (dot_piece 5 3)) rfl).1 (by decide)
  have h2 := (block_fall_moves_or_locks Bitset.empty (dot_piece 5 0)
    (create_image (dot_piece 5 0)) rfl).2 (by decide)
  exact ⟨⟨h1.1, h1.2.1⟩, ⟨h2.1, h2.2.2.1⟩⟩

/-! ## Properties of the image of a piece -/

theorem rotate_cw_injective : Function.Injective Point.rotate_cw := by
  intro p q h
  cases p
  cases q
  simp only [Point.rotate_cw, Point.mk.injEq] at h ⊢
  omega

theorem rotate_loop_length (n : Nat) : ∀ rotated : Tetromino,
    (rotate_loop n rotated).length = rotated.length := by
  induction n with
  | zero => intro rotated; rfl
  | succ n ih => intro rotated; simp [rotate_loop, ih]

theorem rotate_loop_nodup (n : Nat) : ∀ rotated : Tetromino, rotated.Nodup →
    (rotate_loop n rotated).Nodup := by
  induction n with
  | zero => intro rotated h; exact h
  | succ n ih =>
    intro rotated h
    exact ih _ (List.Nodup.map rotate_cw_injective h)

theorem get_absolute_positions_length (piece : BlockPiece) :
    piece.get_absolute_positions.length = piece.shape.length := by
  simp [BlockPiece.get_absolute_positions, BlockPiece.get_rotated_shape, rotate_loop_length]

theorem get_absolute_positions_nodup (piece : BlockPiece) (h : piece.shape.Nodup) :
    piece.get_absolute_positions.Nodup := by
  unfold BlockPiece.get_absolute_positions BlockPiece.get_rotated_shape
  refine List.Nodup.map ?_ (rotate_loop_nodup _ _ h)
  intro p q hpq
  cases p
  cases q
  simp only [Point.add, Point.mk.injEq] at hpq ⊢
  omega

theorem TETROMINOS_nodup : ∀ t ∈ TETROMINOS, t.Nodup := by decide

theorem countP_or_of_disjoint (p q : Nat → Bool) (l : List Nat)
    (h : ∀ j ∈ l, p j = true → q j = true → False) :
    l.countP (fun j => p j || q j) = l.countP p + l.countP q := by
  induction l with
  | nil => rfl
  | cons a l ih =>
    have ih' := ih (fun j hj => h j (List.mem_cons_of_mem _ hj))
    have ha := h a (List.mem_cons_self _ _)
    simp only [List.countP_cons, ih']
    cases hp : p a <;> cases hq : q a <;> simp_all <;> omega

theorem Bitset.count_or_of_disjoint (a b : Bitset)
    (h : ∀ j, Nat.testBit a j = true → Nat.testBit b j = true → False) :
    Bitset.count (a ||| b) = Bitset.count a + Bitset.count b := by
  unfold Bitset.count
  rw [← countP_or_of_disjoint _ _ _ (fun j _ => h j)]
  simp only [Nat.testBit_or]

theorem Bitset.testBit_set (b : Bitset) (i : Int) (hi : Bitset.in_range i = true) (j : Nat) :
    Nat.testBit (Bitset.set b i) j = (Nat.testBit b j || decide (j = i.toNat)) := by
  unfold Bitset.set
  rw [if_pos hi, Nat.testBit_or, Nat.one_shiftLeft, Nat.testBit_two_pow]
  congr 1
  simp only [eq_comm]

theorem Bitset.count_set (b : Bitset) (i : Int) (hi : Bitset.in_range i = true)
    (hb : Bitset.test b i = false) : Bitset.count (Bitset.set b i) = Bitset.count b + 1 := by
  have hi' := (Bitset.in_range_iff i).1 hi
  have hbit : Nat.testBit b i.toNat = false := by
    simpa [Bitset.test, hi] using hb
  unfold Bitset.count
  have e : (fun j => Nat.testBit (Bitset.set b i) j)
      = (fun j => Nat.testBit b j || decide (j = i.toNat)) := by
    funext j
    exact Bitset.testBit_set b i hi j
  rw [e, countP_or_of_disjoint]
  · congr 1
    have hmem : i.toNat ∈ List.range MAX_SQUARE.toNat := by
      rw [List.mem_range]
      simp only [MAX_SQUARE, ROW, COL]
      omega
    rw [← List.count_eq_one_of_mem (List.nodup_range MAX_SQUARE.toNat) hmem]
    unfold List.count
    apply List.countP_congr
    intro j _
    simp
  · intro j _ h1 h2
    simp only [decide_eq_true_eq] at h2
    subst h2
    rw [hbit] at h1
    exact Bool.noConfusion h1

theorem index_injective (p q : Point) (hp : is_valid_position p.col p.row = true)
    (hq : is_valid_position q.col q.row = true)
    (h : p.row * COL + p.col = q.row * COL + q.col) : p = q := by
  rw [is_valid_position_iff] at hp hq
  cases p
  cases q
  simp only [COL, Point.mk.injEq] at *
  omega

theorem mark_point_on_img_of_valid (pt : Point) (image : Bitset)
    (h : is_valid_position pt.col pt.row = true) :
    mark_point_on_img pt image = Bitset.set image (pt.row * COL + pt.col) := by
  simp only [mark_point_on_img, h, if_true]

/-- Marking the points of a list that has no repetition, lies inside the board and
misses the set bits of the image adds one set bit per point. -/
theorem count_foldl_mark (positions : List Point) : ∀ image : Bitset,
    (∀ p ∈ positions, is_valid_position p.col p.row = true) → positions.Nodup →
    (∀ p ∈ positions, Bitset.test image (p.row * COL + p.col) = false) →
    Bitset.count (positions.foldl (fun image pos => mark_point_on_img pos image) image)
      = Bitset.count image + positions.length := by
  induction positions with
  | nil => intro image _ _ _; rfl
  | cons p rest ih =>
    intro image hvalid hnodup hfree
    have hp := hvalid p (List.mem_cons_self _ _)
    have hnd := List.nodup_cons.1 hnodup
    rw [List.foldl_cons, mark_point_on_img_of_valid p image hp,
      ih _ (fun q hq => hvalid q (List.mem_cons_of_mem _ hq)) hnd.2,
      Bitset.count_set _ _ (in_range_of_valid _ _ hp) (hfree p (List.mem_cons_self _ _)),
      List.length_cons]
    · omega
    · intro q hq
      rw [Bitset.test_set, hfree q (List.mem_cons_of_mem _ hq)]
      have hne : ¬ (p.row * COL + p.col = q.row * COL + q.col) := by
        intro e
        have := index_injective p q hp (hvalid q (List.mem_cons_of_mem _ hq)) e
        exact hnd.1 (this ▸ hq)
      simp [hne]

/-- Every set bit of the result of marking a list of points was set before or is the bit
of a point of the list that lies inside the board. -/
theorem testBit_foldl_mark (positions : List Point) : ∀ (image : Bitset) (j : Nat),
    Nat.testBit (positions.foldl (fun image pos => mark_point_on_img pos image) image) j
      = true →
    Nat.testBit image j = true ∨
      ∃ p ∈ positions, is_valid_position p.col p.row = true ∧
        (p.row * COL + p.col).toNat = j := by
  induction positions with
  | nil => intro image j h; exact Or.inl h
  | cons p rest ih =>
    intro image j h
    rw [List.foldl_cons] at h
    rcases ih _ j h with h1 | ⟨q, hq, hv, he⟩
    · by_cases hp : is_valid_position p.col p.row = true
      · rw [mark_point_on_img_of_valid p image hp,
          Bitset.testBit_set _ _ (in_range_of_valid _ _ hp)] at h1
        simp only [Bool.or_eq_true, decide_eq_true_eq] at h1
        rcases h1 with h1 | h1
        · exact Or.inl h1
        · exact Or.inr ⟨p, List.mem_cons_self _ _, hp, h1.symm⟩
      · simp only [mark_point_on_img, hp] at h1
        exact Or.inl h1
    · exact Or.inr ⟨q, List.mem_cons_of_mem _ hq, hv, he⟩

theorem count_empty : Bitset.count Bitset.empty = 0 := by
  simp [Bitset.count, Bitset.empty]

/-- The image of a piece that can be placed and whose shape has no repeated point has as
many set bits as the shape has points, and none of them is set on the screen. -/
theorem create_image_of_placed (piece : BlockPiece) (screen : Bitset)
    (hshape : piece.shape.Nodup) (hplace : can_move_piece piece screen = true) :
    Bitset.count (create_image piece) = piece.shape.length ∧
    ∀ j, Nat.testBit screen j = true → Nat.testBit (create_image piece) j = true → False := by
  have hpos := (can_move_piece_iff piece screen).1 hplace
  constructor
  · unfold create_image
    rw [count_foldl_mark _ _ (fun p hp => (hpos p hp).1)
      (get_absolute_positions_nodup piece hshape)
      (fun p _ => Bitset.test_empty _), count_empty, get_absolute_positions_length]
    omega
  · intro j hs hi
    rcases testBit_foldl_mark _ _ j hi with h | ⟨p, hp, hv, he⟩
    · simp [Bitset.empty] at h
    · have hfree := (hpos p hp).2
      unfold Bitset.test at hfree
      rw [in_range_of_valid _ _ hv, he, hs] at hfree
      exact Bool.noConfusion hfree

/-- C6 (lock conservation): for every board and every catalog piece (any archetype, any
position, any rotation, in particular 0..3) that passes `can_move_piece` and has
`image = create_image piece`, when `block_fall` locks the piece (returns false) the number
of set cells of the board after the lock is the number before the lock plus the number of
cells of the archetype. -/
theorem block_fall_lock_conserves_cells (screen : Bitset) (piece : BlockPiece)
    (image : Bitset) (hcatalog : piece.shape ∈ TETROMINOS)
    (hplace : can_move_piece piece screen = true) (himage : image = create_image piece)
    (hlock : (block_fall screen piece image).1 = false) :
    Bitset.count (block_fall screen piece image).2.screen
      = Bitset.count screen + piece.shape.length := by
  have hcannot : can_move_piece piece.lowered screen = false := by
    by_cases h : can_move_piece piece.lowered screen = true
    · rw [block_fall_of_can screen piece image h] at hlock
      exact Bool.noConfusion hlock
    · simpa using h
  obtain ⟨hcount, hdisj⟩ :=
    create_image_of_placed piece screen (TETROMINOS_nodup _ hcatalog) hplace
  rw [block_fall_of_cannot screen piece image hcannot, himage]
  show Bitset.count (screen ||| create_image piece) = _
  rw [Bitset.count_or_of_disjoint _ _ hdisj, hcount]

/-- Witness of C6: the L archetype (index 4), rotated once, resting at column 5, row 1 on
the board whose bottom row is full except for columns 4 and 5. -/
theorem block_fall_lock_conserves_cells_witness :
    Bitset.count (block_fall 975
        { shape := [⟨-1, 0⟩, ⟨-1, 1⟩, ⟨0, 0⟩, ⟨1, 0⟩], position := ⟨5, 1⟩, rotation := 1,
          type := 4 }
        (create_image
          { shape := [⟨-1, 0⟩, ⟨-1, 1⟩, ⟨0, 0⟩, ⟨1, 0⟩], position := ⟨5, 1⟩, rotation := 1,
            type := 4 })).2.screen
      = Bitset.count 975 + 4 :=
  block_fall_lock_conserves_cells 975
    { shape := [⟨-1, 0⟩, ⟨-1, 1⟩, ⟨0, 0⟩, ⟨1, 0⟩], position := ⟨5, 1⟩, rotation := 1,
      type := 4 }
    _ (by decide) (by decide) rfl (by decide)

/-! ## Properties of the drop and of the shadow -/

theorem lowered_get_rotated_shape (piece : BlockPiece) :
    piece.lowered.get_rotated_shape = piece.get_rotated_shape := rfl

theorem exists_rotated_point (piece : BlockPiece) (h : piece.shape ≠ []) :
    ∃ pt, pt ∈ piece.get_rotated_shape := by
  have hlen : piece.get_rotated_shape.length = piece.shape.length :=
    rotate_loop_length _ _
  cases hs : piece.get_rotated_shape with
  | nil =>
    rw [hs] at hlen
    exact absurd (List.length_eq_zero.1 hlen.symm) h
  | cons pt rest => exact ⟨pt, List.mem_cons_self _ _⟩

/-- A piece that can be placed has every cell in a row of `[0, ROW)`. -/
theorem can_move_piece_row_bounds (piece : BlockPiece) (screen : Bitset) (pt : Point)
    (hpt : pt ∈ piece.get_rotated_shape) (h : can_move_piece piece screen = true) :
    0 ≤ piece.position.row + pt.row ∧ piece.position.row + pt.row < 15 := by
  have hmem : piece.position.add pt ∈ piece.get_absolute_positions :=
    List.mem_map_of_mem _ hpt
  have hv := (is_valid_position_iff _ _).1 (((can_move_piece_iff piece screen).1 h) _ hmem).1
  simp only [Point.add] at hv
  omega

/-- The loop of `block_shadow` returns when its fuel exceeds the row of a cell of the
piece: the shadow piece is the piece at a lower or equal row, it cannot fall further, and
unless it is the piece itself its cells are in rows `>= 0`. -/
theorem shadow_loop_returns (screen : Bitset) (pt : Point) : ∀ (fuel : Nat)
    (piece : BlockPiece), pt ∈ piece.get_rotated_shape →
    (can_move_piece piece.lowered screen = true → piece.position.row + pt.row ≤ fuel) →
    ∃ sp, shadow_loop (fuel + 1) screen piece = some sp ∧
      sp = { piece with position := ⟨piece.position.col, sp.position.row⟩ } ∧
      sp.position.row ≤ piece.position.row ∧
      can_move_piece sp.lowered screen = false ∧
      (sp = piece ∨
        (can_move_piece piece.lowered screen = true ∧ 0 ≤ sp.position.row + pt.row)) := by
  intro fuel
  induction fuel with
  | zero =>
    intro piece hpt hfuel
    have hcannot : can_move_piece piece.lowered screen = false := by
      by_cases h : can_move_piece piece.lowered screen = true
      · have hb := can_move_piece_row_bounds piece.lowered screen pt hpt h
        have := hfuel h
        simp only [BlockPiece.lowered] at hb
        omega
      · simpa using h
    exact ⟨piece, by simp [shadow_loop, hcannot], rfl, le_refl _, hcannot, Or.inl rfl⟩
  | succ fuel ih =>
    intro piece hpt hfuel
    by_cases h : can_move_piece piece.lowered screen = true
    · have hb := can_move_piece_row_bounds piece.lowered screen pt hpt h
      obtain ⟨sp, h1, h2, h3, h4, h5⟩ := ih piece.lowered hpt (by
        intro _
        have := hfuel h
        simp only [BlockPiece.lowered]
        push_cast at this
        omega)
      refine ⟨sp, ?_, ?_, ?_, h4, Or.inr ⟨h, ?_⟩⟩
      · rw [shadow_loop]
        simp only [h, if_true]
        exact h1
      · exact h2
      · simp only [BlockPiece.lowered] at h3
        omega
      · rcases h5 with h5 | h5
        · rw [h5]
          exact hb.1
        · exact h5.2
    · have hcannot : can_move_piece piece.lowered screen = false := by simpa using h
      exact ⟨piece, by simp [shadow_loop, hcannot], rfl, le_refl _, hcannot, Or.inl rfl⟩

/-- The piece that `block_drop` leaves is the shadow piece, whatever the image is. -/
theorem block_drop_piece : ∀ (fuel : Nat) (screen : Bitset) (piece : BlockPiece)
    (image : Bitset),
    (block_drop fuel screen piece image).map (fun r => r.piece)
      = shadow_loop fuel screen piece := by
  intro fuel
  induction fuel with
  | zero => intro screen piece image; rfl
  | succ fuel ih =>
    intro screen piece image
    rw [block_drop, shadow_loop]
    by_cases h : can_move_piece piece.lowered screen = true
    · simp only [block_fall_of_can screen piece image h, h, if_true]
      exact ih _ _ _
    · have hcannot : can_move_piece piece.lowered screen = false := by simpa using h
      simp [block_fall_of_cannot screen piece image hcannot, hcannot]

/-- From `image = create_image piece`, `block_drop` pastes the image of the shadow piece. -/
theorem block_drop_eq_shadow : ∀ (fuel : Nat) (screen : Bitset) (piece : BlockPiece)
    (image : Bitset), image = create_image piece →
    block_drop fuel screen piece image
      = (shadow_loop fuel screen piece).map
          (fun sp => { screen := screen ||| create_image sp, piece := sp,
                       image := Bitset.empty }) := by
  intro fuel
  induction fuel with
  | zero => intro screen piece image _; rfl
  | succ fuel ih =>
    intro screen piece image himage
    subst himage
    rw [block_drop, shadow_loop]
    by_cases h : can_move_piece piece.lowered screen = true
    · simp only [block_fall_of_can screen piece _ h, h, if_true]
      exact ih _ _ _ rfl
    · have hcannot : can_move_piece piece.lowered screen = false := by simpa using h
      simp [block_fall_of_cannot screen piece _ hcannot, hcannot]

/-- The loop of `block_shadow` with 16 units of fuel or more, for a non-empty shape. -/
theorem shadow_loop_total (screen : Bitset) (piece : BlockPiece) (fuel : Nat)
    (hshape : piece.shape ≠ []) (hfuel : 16 ≤ fuel) :
    ∃ sp, shadow_loop fuel screen piece = some sp ∧
      sp = { piece with position := ⟨piece.position.col, sp.position.row⟩ } ∧
      sp.position.row ≤ piece.position.row ∧
      piece.position.row - sp.position.row ≤ 15 ∧
      can_move_piece sp.lowered screen = false := by
  obtain ⟨pt, hpt⟩ := exists_rotated_point piece hshape
  obtain ⟨f, rfl⟩ : ∃ f, fuel = f + 1 := ⟨fuel - 1, by omega⟩
  have hbound : can_move_piece piece.lowered screen = true →
      piece.position.row + pt.row ≤ 15 := by
    intro h
    have hb := can_move_piece_row_bounds piece.lowered screen pt hpt h
    simp only [BlockPiece.lowered] at hb
    omega
  obtain ⟨sp, h1, h2, h3, h4, h5⟩ := shadow_loop_returns screen pt f piece hpt (by
    intro h
    have := hbound h
    omega)
  refine ⟨sp, h1, h2, h3, ?_, h4⟩
  rcases h5 with h5 | ⟨h5, h6⟩
  · rw [h5]
    omega
  · have := hbound h5
    omega

/-- The loop of `block_shadow` with 15 units of fuel or more, for a piece with a
non-empty shape that can be placed. -/
theorem shadow_loop_total_of_placed (screen : Bitset) (piece : BlockPiece) (fuel : Nat)
    (hshape : piece.shape ≠ []) (hplace : can_move_piece piece screen = true)
    (hfuel : 15 ≤ fuel) :
    ∃ sp, shadow_loop fuel screen piece = some sp ∧
      sp.position.row ≤ piece.position.row ∧
      piece.position.row - sp.position.row ≤ 14 := by
  obtain ⟨pt, hpt⟩ := exists_rotated_point piece hshape
  obtain ⟨f, rfl⟩ : ∃ f, fuel = f + 1 := ⟨fuel - 1, by omega⟩
  have hb := can_move_piece_row_bounds piece screen pt hpt hplace
  obtain ⟨sp, h1, _, h3, _, h5⟩ := shadow_loop_returns screen pt f piece hpt (by
    intro _
    omega)
  refine ⟨sp, h1, h3, ?_⟩
  rcases h5 with h5 | ⟨_, h6⟩
  · rw [h5]
    omega
  · omega

/-- C7 (hard drop lands on the shadow): for every board and every piece with a non-empty
shape and `image = create_image piece`, with enough fuel `block_shadow` and `block_drop`
return, the board after `block_drop` is the board before it with exactly the bits of
`block_shadow screen piece` additionally set, and the piece after `block_drop` is the
shadow piece, which is the piece at a lower or equal row.  `block_shadow` takes the screen
by const reference and the piece by value: its embedding returns the shadow only. -/
theorem block_drop_lands_on_shadow (screen : Bitset) (piece : BlockPiece) (image : Bitset)
    (fuel : Nat) (hshape : piece.shape ≠ []) (himage : image = create_image piece)
    (hfuel : 16 ≤ fuel) :
    ∃ shadow_piece shadow,
      shadow_loop fuel screen piece = some shadow_piece ∧
      block_shadow fuel screen piece = some shadow ∧
      shadow = create_image shadow_piece ∧
      block_drop fuel screen piece image
        = some { screen := screen ||| shadow, piece := shadow_piece,
                 image := Bitset.empty } ∧
      shadow_piece
        = { piece with position := ⟨piece.position.col, shadow_piece.position.row⟩ } ∧
      shadow_piece.position.row ≤ piece.position.row := by
  obtain ⟨sp, h1, h2, h3, _, _⟩ := shadow_loop_total screen piece fuel hshape hfuel
  refine ⟨sp, create_image sp, h1, ?_, rfl, ?_, h2, h3⟩
  · rw [block_shadow, h1]
    rfl
  · rw [block_drop_eq_shadow fuel screen piece image himage, h1]
    rfl

/-- Witness of C7: the 4-in-line piece at the spawn point on the empty board, fuel 16. -/
theorem block_drop_lands_on_shadow_witness :
    ∃ shadow_piece shadow,
      shadow_loop 16 Bitset.empty line_piece_at_spawn = some shadow_piece ∧
      block_shadow 16 Bitset.empty line_piece_at_spawn = some shadow ∧
      shadow = create_image shadow_piece ∧
      block_drop 16 Bitset.empty line_piece_at_spawn (create_image line_piece_at_spawn)
        = some { screen := Bitset.empty ||| shadow, piece := shadow_piece,
                 image := Bitset.empty } ∧
      shadow_piece
        = { line_piece_at_spawn with
            position := ⟨line_piece_at_spawn.position.col, shadow_piece.position.row⟩ } ∧
      shadow_piece.position.row ≤ line_piece_at_spawn.position.row :=
  block_drop_lands_on_shadow Bitset.empty line_piece_at_spawn
    (create_image line_piece_at_spawn) 16 (by decide) rfl (by decide)

/-- Counterexample to C8 as stated: from the single-cell piece at column 5, row 15 on the
empty board `block_fall` returns true 15 = `ROW` times in a row: 15 calls of `block_fall`
do not end `block_drop`, and the 16th locks the piece in row 0. -/
theorem block_drop_falls_ROW_times :
    (dot_piece 5 15).shape ≠ [] ∧
    block_drop 15 Bitset.empty (dot_piece 5 15) (create_image (dot_piece 5 15)) = none ∧
    block_drop 16 Bitset.empty (dot_piece 5 15) (create_image (dot_piece 5 15))
      = some { screen := 2 ^ 5, piece := dot_piece 5 0, image := Bitset.empty } := by
  decide

/-- C8 (amended): for every board, every image and every piece with a non-empty shape,
`block_drop` terminates: `block_fall` returns true at most `ROW` = 15 times in a row before
it returns false and locks (16 units of fuel suffice, and the row of the piece is lowered
by at most 15); when the piece passes `can_move_piece` at the start, at most `ROW - 1` = 14
times (15 units of fuel suffice, and the row is lowered by at most 14). -/
theorem block_drop_terminates (screen : Bitset) (piece : BlockPiece) (image : Bitset)
    (hshape : piece.shape ≠ []) :
    (∀ fuel, 16 ≤ fuel → ∃ r, block_drop fuel screen piece image = some r ∧
      r.piece.position.row ≤ piece.position.row ∧
      piece.position.row - r.piece.position.row ≤ 15) ∧
    (can_move_piece piece screen = true →
      ∀ fuel, 15 ≤ fuel → ∃ r, block_drop fuel screen piece image = some r ∧
        r.piece.position.row ≤ piece.position.row ∧
        piece.position.row - r.piece.position.row ≤ 14) := by
  constructor
  · intro fuel hfuel
    obtain ⟨sp, h1, _, h3, h4, _⟩ := shadow_loop_total screen piece fuel hshape hfuel
    have hp := block_drop_piece fuel screen piece image
    rw [h1] at hp
    cases hd : block_drop fuel screen piece image with
    | none =>
      rw [hd] at hp
      exact Option.noConfusion hp
    | some r =>
      rw [hd] at hp
      simp only [Option.map_some', Option.some.injEq] at hp
      exact ⟨r, rfl, by rw [hp]; exact h3, by rw [hp]; exact h4⟩
  · intro hplace fuel hfuel
    obtain ⟨sp, h1, h3, h4⟩ :=
      shadow_loop_total_of_placed screen piece fuel hshape hplace hfuel
    have hp := block_drop_piece fuel screen piece image
    rw [h1] at hp
    cases hd : block_drop fuel screen piece image with
    | none =>
      rw [hd] at hp
      exact Option.noConfusion hp
    | some r =>
      rw [hd] at hp
      simp only [Option.map_some', Option.some.injEq] at hp
      exact ⟨r, rfl, by rw [hp]; exact h3, by rw [hp]; exact h4⟩

/-- Witness of C8 (amended): the 4-in-line piece at the spawn point on the empty board
passes `can_move_piece`; `block_drop` returns with fuel 16 and with fuel 15. -/
theorem block_drop_terminates_witness :
    (∃ r, block_drop 16 Bitset.empty line_piece_at_spawn Bitset.empty = some r ∧
      r.piece.position.row ≤ line_piece_at_spawn.position.row ∧
      line_piece_at_spawn.position.row - r.piece.position.row ≤ 15) ∧
    (∃ r, block_drop 15 Bitset.empty line_piece_at_spawn Bitset.empty = some r ∧
      r.piece.position.row ≤ line_piece_at_spawn.position.row ∧
      line_piece_at_spawn.position.row - r.piece.position.row ≤ 14) :=
  ⟨(block_drop_terminates Bitset.empty line_piece_at_spawn Bitset.empty (by decide)).1 16
      (by decide),
   (block_drop_terminates Bitset.empty line_piece_at_spawn Bitset.empty (by decide)).2
      (by decide) 15 (by decide)⟩

/-! ## Properties of the rotation and of the horizontal move -/

/-- The loop over `kick_y` returns the first kicked piece that can be placed, among the
kicks of the remaining values of `kick_y` other than `(0,0)`. -/
theorem kick_y_loop_eq (screen : Bitset) (rotated_piece : BlockPiece) (kick_x : Int)
    (ys : List Int) :
    kick_y_loop screen rotated_piece kick_x ys
      = ((ys.filter (fun kick_y => !decide (kick_x = 0 ∧ kick_y = 0))).map
          (fun kick_y => rotated_piece.kicked kick_x kick_y)).find?
          (fun c => can_move_piece c screen) := by
  induction ys with
  | nil => rfl
  | cons kick_y rest ih =>
    rw [kick_y_loop]
    by_cases h0 : kick_x = 0 ∧ kick_y = 0
    · rw [if_pos h0, ih, List.filter_cons_of_neg (by simp [h0])]
    · rw [if_neg h0, List.filter_cons_of_pos (by simp [h0]), List.map_cons, List.find?_cons]
      by_cases hc : can_move_piece (rotated_piece.kicked kick_x kick_y) screen = true
      · simp only [hc, if_true]
      · simp only [Bool.not_eq_true] at hc
        simp only [hc, ih]
        rfl

theorem int_range_kicks : int_range (-1) 2 = [-1, 0, 1] := by decide

theorem kicked_zero (piece : BlockPiece) : piece.kicked 0 0 = piece := by
  cases piece
  simp [BlockPiece.kicked]

/-- The two kick loops of `block_rotate` return the first of the eight kicked pieces, in
the order of the loops, that can be placed. -/
theorem kick_x_loop_eq (screen : Bitset) (r : BlockPiece) :
    kick_x_loop screen r (int_range (-1) 2)
      = List.find? (fun c => can_move_piece c screen)
          [r.kicked (-1) (-1), r.kicked (-1) 0, r.kicked (-1) 1, r.kicked 0 (-1),
           r.kicked 0 1, r.kicked 1 (-1), r.kicked 1 0, r.kicked 1 1] := by
  have e : [r.kicked (-1) (-1), r.kicked (-1) 0, r.kicked (-1) 1, r.kicked 0 (-1),
           r.kicked 0 1, r.kicked 1 (-1), r.kicked 1 0, r.kicked 1 1]
      = [r.kicked (-1) (-1), r.kicked (-1) 0, r.kicked (-1) 1]
        ++ ([r.kicked 0 (-1), r.kicked 0 1]
          ++ [r.kicked 1 (-1), r.kicked 1 0, r.kicked 1 1]) := rfl
  have e1 : kick_y_loop screen r (-1) [-1, 0, 1]
      = List.find? (fun c => can_move_piece c screen)
          [r.kicked (-1) (-1), r.kicked (-1) 0, r.kicked (-1) 1] := by
    rw [kick_y_loop_eq]
    rfl
  have e2 : kick_y_loop screen r 0 [-1, 0, 1]
      = List.find? (fun c => can_move_piece c screen) [r.kicked 0 (-1), r.kicked 0 1] := by
    rw [kick_y_loop_eq]
    rfl
  have e3 : kick_y_loop screen r 1 [-1, 0, 1]
      = List.find? (fun c => can_move_piece c screen)
          [r.kicked 1 (-1), r.kicked 1 0, r.kicked 1 1] := by
    rw [kick_y_loop_eq]
    rfl
  rw [e, List.find?_append, List.find?_append, int_range_kicks]
  simp only [kick_x_loop, int_range_kicks, e1, e2, e3]
  cases List.find? (fun c => can_move_piece c screen)
      [r.kicked (-1) (-1), r.kicked (-1) 0, r.kicked (-1) 1] <;>
    cases List.find? (fun c => can_move_piece c screen) [r.kicked 0 (-1), r.kicked 0 1] <;>
    cases List.find? (fun c => can_move_piece c screen)
      [r.kicked 1 (-1), r.kicked 1 0, r.kicked 1 1] <;>
    rfl

/-- C9: for every board and piece, `block_rotate` considers the piece with rotation
`(rotation + 1) % 4` translated by `(0,0)`, `(-1,-1)`, `(-1,0)`, `(-1,1)`, `(0,-1)`,
`(0,1)`, `(1,-1)`, `(1,0)`, `(1,1)` in exactly this order (`rotate_candidates`): if some
candidate passes `can_move_piece` it returns true, the piece becomes the first such
candidate and the image its image; if none does it returns false and piece and image are
unchanged.  The board is unchanged in both cases.  (`%` is the C++ remainder, which is
the mathematical `mod 4` for every rotation `>= -1`, in particular for 0..3.) -/
theorem block_rotate_first_candidate (screen : Bitset) (piece : BlockPiece)
    (image : Bitset) :
    block_rotate screen piece image
      = match (rotate_candidates piece).find? (fun c => can_move_piece c screen) with
        | some c => (true, { screen := screen, piece := c, image := create_image c })
        | none => (false, { screen := screen, piece := piece, image := image }) := by
  obtain ⟨r, hr⟩ : ∃ r : BlockPiece,
      r = { piece with rotation := Int.tmod (piece.rotation + 1) 4 } := ⟨_, rfl⟩
  have hcand : rotate_candidates piece
      = r :: [r.kicked (-1) (-1), r.kicked (-1) 0, r.kicked (-1) 1, r.kicked 0 (-1),
           r.kicked 0 1, r.kicked 1 (-1), r.kicked 1 0, r.kicked 1 1] := by
    rw [hr]
    simp [rotate_candidates, BlockPiece.kicked]
  have hrot : block_rotate screen piece image
      = if can_move_piece r screen then
          (true, { screen := screen, piece := r, image := create_image r })
        else
          match kick_x_loop screen r (int_range (-1) 2) with
          | some kicked_piece =>
            (true, { screen := screen, piece := kicked_piece,
                     image := create_image kicked_piece })
          | none => (false, { screen := screen, piece := piece, image := image }) := by
    rw [hr]
    rfl
  rw [hrot, hcand, List.find?_cons, kick_x_loop_eq]
  cases can_move_piece r screen <;> rfl

theorem block_move_horizontal_of_can (screen : Bitset) (piece : BlockPiece)
    (image : Bitset) (direction : Int)
    (h : can_move_piece
      { piece with position := ⟨piece.position.col + direction, piece.position.row⟩ }
      screen = true) :
    block_move_horizontal screen piece image direction
      = (true,
          { screen := screen,
            piece :=
              { piece with
                position := ⟨piece.position.col + direction, piece.position.row⟩ },
            image := create_image
              { piece with
                position := ⟨piece.position.col + direction, piece.position.row⟩ } }) := by
  simp only [block_move_horizontal, h, if_true]

theorem block_move_horizontal_of_cannot (screen : Bitset) (piece : BlockPiece)
    (image : Bitset) (direction : Int)
    (h : can_move_piece
      { piece with position := ⟨piece.position.col + direction, piece.position.row⟩ }
      screen = false) :
    block_move_horizontal screen piece image direction
      = (false, { screen := screen, piece := piece, image := image }) := by
  simp only [block_move_horizontal, h]
  rfl

/-- C10: for every board, piece, image and direction (in particular -1 and +1),
`block_move_horizontal` returns true iff the piece translated by `direction` in its column
passes `can_move_piece`; when it returns true the column of the piece changes by exactly
`direction`, its row, rotation, type and shape are unchanged and the image is the image of
the moved piece; when it returns false the piece and the image are unchanged.  The board is
unchanged in both cases. -/
theorem block_move_horizontal_commits_iff_valid (screen : Bitset) (piece : BlockPiece)
    (image : Bitset) (direction : Int) :
    ((block_move_horizontal screen piece image direction).1 = true ↔
      can_move_piece
        { piece with position := ⟨piece.position.col + direction, piece.position.row⟩ }
        screen = true) ∧
    ((block_move_horizontal screen piece image direction).1 = true →
      (block_move_horizontal screen piece image direction).2.piece.position.col
        = piece.position.col + direction ∧
      (block_move_horizontal screen piece image direction).2.piece.position.row
        = piece.position.row ∧
      (block_move_horizontal screen piece image direction).2.piece.rotation
        = piece.rotation ∧
      (block_move_horizontal screen piece image direction).2.piece.type = piece.type ∧
      (block_move_horizontal screen piece image direction).2.piece.shape = piece.shape ∧
      (block_move_horizontal screen piece image direction).2.image
        = create_image (block_move_horizontal screen piece image direction).2.piece) ∧
    ((block_move_horizontal screen piece image direction).1 = false →
      (block_move_horizontal screen piece image direction).2.piece = piece ∧
      (block_move_horizontal screen piece image direction).2.image = image) ∧
    (block_move_horizontal screen piece image direction).2.screen = screen := by
  by_cases h : can_move_piece
      { piece with position := ⟨piece.position.col + direction, piece.position.row⟩ }
      screen = true
  · rw [block_move_horizontal_of_can screen piece image direction h]
    exact ⟨⟨fun _ => h, fun _ => rfl⟩, fun _ => ⟨rfl, rfl, rfl, rfl, rfl, rfl⟩,
      fun hf => Bool.noConfusion hf, rfl⟩
  · rw [block_move_horizontal_of_cannot screen piece image direction (by simpa using h)]
    exact ⟨⟨fun hf => Bool.noConfusion hf, fun hf => absurd hf h⟩,
      fun hf => Bool.noConfusion hf, fun _ => ⟨rfl, rfl⟩, rfl⟩

/-- Witness of C10: on the empty board the single cell at column 5, row 3 moves right to
column 6, and the single cell at column 0, row 3 does not move left. -/
theorem block_move_horizontal_commits_iff_valid_witness :
    ((block_move_horizontal Bitset.empty (dot_piece 5 3)
        (create_image (dot_piece 5 3)) 1).2.piece.position.col = 5 + 1 ∧
      (block_move_horizontal Bitset.empty (dot_piece 5 3)
        (create_image (dot_piece 5 3)) 1).2.piece.position.row = 3) ∧
    ((block_move_horizontal Bitset.empty (dot_piece 0 3)
        (create_image (dot_piece 0 3)) (-1)).2.piece = dot_piece 0 3 ∧
      (block_move_horizontal Bitset.empty (dot_piece 0 3)
        (create_image (dot_piece 0 3)) (-1)).2.image = create_image (dot_piece 0 3)) := by
  have h1 := (block_move_horizontal_commits_iff_valid Bitset.empty (dot_piece 5 3)
    (create_image (dot_piece 5 3)) 1).2.1 (by decide)
  have h2 := (block_move_horizontal_commits_iff_valid Bitset.empty (dot_piece 0 3)
    (create_image (dot_piece 0 3)) (-1)).2.2.1 (by decide)
  exact ⟨⟨h1.1, h1.2.1⟩, h2⟩

/-! ## Properties of the geometry -/

theorem rotate_cw_four (p : Point) : p.rotate_cw.rotate_cw.rotate_cw.rotate_cw = p := by
  cases p
  simp [Point.rotate_cw]

theorem rotate_loop_four (rotated : Tetromino) : rotate_loop 4 rotated = rotated := by
  simp only [rotate_loop, List.map_map]
  conv_rhs => rw [← List.map_id rotated]
  apply List.map_congr_left
  intro p _
  exact rotate_cw_four p

theorem rotate_loop_add_four (n : Nat) (rotated : Tetromino) :
    rotate_loop (n + 4) rotated = rotate_loop n rotated := by
  have h : rotate_loop (n + 4) rotated = rotate_loop n (rotate_loop 4 rotated) := rfl
  rw [h, rotate_loop_four]

/-- C11 (rotation identity): for every integer point `p`, `rotate_cw` maps `(col, row)` to
`(-row, col)` and `rotate_ccw` to `(row, -col)`, `rotate_cw` applied 4 times returns `p`
exactly, and `rotate_ccw` undoes `rotate_cw` (and conversely); consequently
`get_rotated_shape` yields the same cells for the rotation counts `r` and `r + 4`, and
rotation count 4 reproduces the points of every shape, in particular of each of the ten
catalog archetypes. -/
theorem rotation_identity :
    (∀ p : Point,
      p.rotate_cw = ⟨-p.row, p.col⟩ ∧ p.rotate_ccw = ⟨p.row, -p.col⟩ ∧
      p.rotate_cw.rotate_cw.rotate_cw.rotate_cw = p ∧
      p.rotate_cw.rotate_ccw = p ∧ p.rotate_ccw.rotate_cw = p) ∧
    (∀ (piece : BlockPiece) (r : Nat),
      BlockPiece.get_rotated_shape { piece with rotation := (r : Int) + 4 }
        = BlockPiece.get_rotated_shape { piece with rotation := (r : Int) }) ∧
    (∀ piece : BlockPiece,
      BlockPiece.get_rotated_shape { piece with rotation := 4 } = piece.shape) ∧
    (∀ (i : Fin 10) (position : Point),
      BlockPiece.get_rotated_shape
          { shape := TETROMINOS.getD i.val [], position := position, rotation := 4,
            type := i.val }
        = TETROMINOS.getD i.val []) := by
  refine ⟨?_, ?_, ?_, ?_⟩
  · intro p
    refine ⟨rfl, rfl, rotate_cw_four p, ?_, ?_⟩
    · cases p
      simp [Point.rotate_cw, Point.rotate_ccw]
    · cases p
      simp [Point.rotate_cw, Point.rotate_ccw]
  · intro piece r
    have e1 : ((r : Int) + 4).toNat = r + 4 := by omega
    have e2 : (r : Int).toNat = r := by omega
    simp only [BlockPiece.get_rotated_shape, e1, e2]
    exact rotate_loop_add_four r piece.shape
  · intro piece
    exact rotate_loop_four piece.shape
  · intro i position
    exact rotate_loop_four _

/-! ## Properties of the level and of the fall interval -/

/-- C13: the level computed after each lock is exactly `floor(score / 250) + 1` for a
32-bit score, so it is at least 1, and it is monotone in the score: for all scores
`s1 <= s2`, `s1 / 250 + 1 <= s2 / 250 + 1`. -/
theorem level_of_score_floor_and_monotone (s1 s2 : Nat) (h12 : s1 ≤ s2)
    (h2 : s2 < 2 ^ 32) :
    level_of_score s1 = ((s1 / 250 + 1 : Nat) : Int) ∧
    level_of_score s2 = ((s2 / 250 + 1 : Nat) : Int) ∧
    1 ≤ level_of_score s1 ∧
    s1 / 250 + 1 ≤ s2 / 250 + 1 ∧
    level_of_score s1 ≤ level_of_score s2 := by
  have hdiv : s1 / 250 ≤ s2 / 250 := Nat.div_le_div_right h12
  have hb2 : s2 / 250 + 1 < 2 ^ 32 := by omega
  have hb1 : s1 / 250 + 1 < 2 ^ 32 := by omega
  have e1 : level_of_score s1 = ((s1 / 250 + 1 : Nat) : Int) := by
    unfold level_of_score
    rw [Nat.mod_eq_of_lt hb1]
  have e2 : level_of_score s2 = ((s2 / 250 + 1 : Nat) : Int) := by
    unfold level_of_score
    rw [Nat.mod_eq_of_lt hb2]
  refine ⟨e1, e2, ?_, by omega, ?_⟩
  · rw [e1]
    omega
  · rw [e1, e2]
    omega

/-- Witness of C13: the scores 400 and 1600 give the levels 2 and 7. -/
theorem level_of_score_floor_and_monotone_witness :
    level_of_score 400 = ((400 / 250 + 1 : Nat) : Int) ∧
    level_of_score 1600 = ((1600 / 250 + 1 : Nat) : Int) ∧
    1 ≤ level_of_score 400 ∧
    400 / 250 + 1 ≤ 1600 / 250 + 1 ∧
    level_of_score 400 ≤ level_of_score 1600 :=
  level_of_score_floor_and_monotone 400 1600 (by decide) (by decide)

/-- C14: the fall interval `max(50, 800 - (level - 1) * 50)` is exactly 50 for every level
`>= 16`, is 800 at level 1, lies in `[50, 800]` for every level `>= 1`, and is
non-increasing in the level. -/
theorem fall_interval_floor_and_bounds (level level' : Int) :
    (16 ≤ level → fall_interval level = 50) ∧
    fall_interval 1 = 800 ∧
    (1 ≤ level → 50 ≤ fall_interval level ∧ fall_interval level ≤ 800) ∧
    (level ≤ level' → fall_interval level' ≤ fall_interval level) := by
  unfold fall_interval
  simp only [max_def]
  refine ⟨?_, by decide, ?_, ?_⟩
  · intro h
    split_ifs <;> omega
  · intro h
    split_ifs <;> omega
  · intro h
    split_ifs <;> omega

/-- Witness of C14: levels 16 and 20. -/
theorem fall_interval_floor_and_bounds_witness :
    fall_interval 16 = 50 ∧ (50 ≤ fall_interval 16 ∧ fall_interval 16 ≤ 800) ∧
    fall_interval 20 ≤ fall_interval 16 :=
  ⟨(fall_interval_floor_and_bounds 16 20).1 (by decide),
   (fall_interval_floor_and_bounds 16 20).2.2.1 (by decide),
   (fall_interval_floor_and_bounds 16 20).2.2.2 (by decide)⟩

/-! ## More fuel does not change a result -/

theorem shadow_loop_mono : ∀ (fuel : Nat) (screen : Bitset) (piece sp : BlockPiece),
    shadow_loop fuel screen piece = some sp →
    ∀ k, shadow_loop (fuel + k) screen piece = some sp := by
  intro fuel
  induction fuel with
  | zero =>
    intro screen piece sp h
    exact Option.noConfusion h
  | succ fuel ih =>
    intro screen piece sp h k
    have e : fuel + 1 + k = (fuel + k) + 1 := by omega
    rw [e, shadow_loop]
    rw [shadow_loop] at h
    by_cases hc : can_move_piece piece.lowered screen = true
    · simp only [hc, if_true] at h ⊢
      exact ih _ _ _ h k
    · simp only [hc] at h ⊢
      exact h

theorem check_rows_mono : ∀ (fuel : Nat) (row : Int) (screen : Bitset) (lines : Nat)
    (r : Bitset × Nat), check_rows fuel row screen lines = some r →
    ∀ k, check_rows (fuel + k) row screen lines = some r := by
  intro fuel
  induction fuel with
  | zero =>
    intro row screen lines r h
    exact Option.noConfusion h
  | succ fuel ih =>
    intro row screen lines r h k
    have e : fuel + 1 + k = (fuel + k) + 1 := by omega
    rw [e, check_rows]
    rw [check_rows] at h
    by_cases hrow : row < ROW
    · rw [if_pos hrow] at h ⊢
      by_cases hfull : full_line screen row = true
      · rw [if_pos hfull] at h ⊢
        exact ih _ _ _ _ h k
      · rw [if_neg hfull] at h ⊢
        exact ih _ _ _ _ h k
    · rw [if_neg hrow] at h ⊢
      exact h

theorem check_for_score_mono (fuel : Nat) (screen : Bitset) (score : Nat)
    (r : Bitset × Nat) (h : check_for_score fuel screen score = some r) (k : Nat) :
    check_for_score (fuel + k) screen score = some r := by
  unfold check_for_score at h ⊢
  cases hc : check_rows fuel 0 screen 0 with
  | none =>
    rw [hc] at h
    exact Option.noConfusion h
  | some c =>
    rw [hc] at h
    rw [check_rows_mono fuel 0 screen 0 c hc k]
    exact h

theorem block_drop_mono (fuel : Nat) (screen : Bitset) (piece : BlockPiece) (r : Refs)
    (h : block_drop fuel screen piece (create_image piece) = some r) (k : Nat) :
    block_drop (fuel + k) screen piece (create_image piece) = some r := by
  rw [block_drop_eq_shadow _ _ _ _ rfl] at h ⊢
  cases hs : shadow_loop fuel screen piece with
  | none =>
    rw [hs] at h
    exact Option.noConfusion h
  | some sp =>
    rw [hs] at h
    rw [shadow_loop_mono fuel screen piece sp hs k]
    exact h

/-! ## The spawn and the end-to-end hard drop -/

/-- C20: every one of the 10 catalog archetypes, created by `spawn_new_piece` at the spawn
point `(COL / 2, ROW - 2) = (5, 13)` with rotation 0, passes `can_move_piece` on the empty
board; all its cells lie in columns 4..7 and rows 13..14. -/
theorem spawn_new_piece_is_placeable (piece_type : Nat) (htype : piece_type < 10) :
    (spawn_new_piece piece_type).shape = TETROMINOS.getD piece_type [] ∧
    (spawn_new_piece piece_type).shape ∈ TETROMINOS ∧
    (spawn_new_piece piece_type).position = ⟨5, 13⟩ ∧
    (spawn_new_piece piece_type).rotation = 0 ∧
    can_move_piece (spawn_new_piece piece_type) Bitset.empty = true ∧
    (∀ pos ∈ (spawn_new_piece piece_type).get_absolute_positions,
      4 ≤ pos.col ∧ pos.col ≤ 7 ∧ 13 ≤ pos.row ∧ pos.row ≤ 14) := by
  interval_cases piece_type <;> decide

/-- Witness of C20: the T archetype (index 8); its cell (4,13). -/
theorem spawn_new_piece_is_placeable_witness :
    can_move_piece (spawn_new_piece 8) Bitset.empty = true ∧
    ((4 : Int) ≤ 4 ∧ (4 : Int) ≤ 7 ∧ (13 : Int) ≤ 13 ∧ (13 : Int) ≤ 14) :=
  ⟨(spawn_new_piece_is_placeable 8 (by decide)).2.2.2.2.1,
   (spawn_new_piece_is_placeable 8 (by decide)).2.2.2.2.2 ⟨4, 13⟩ (by decide)⟩

theorem spawn_on_line_landed_board (piece_type : Nat) (htype : piece_type < 10) :
    can_move_piece (spawn_new_piece piece_type) line_landed_board = true := by
  interval_cases piece_type <;> decide

/-- C12 (end-to-end hard drop): on the empty board, the 4-in-line archetype (index 3) at
the spawn point (column 5, row 13) with rotation 0, after `block_drop` (any fuel `>= 16`),
leaves exactly the four cells (4,0), (5,0), (6,0), (7,0) set on the board; the following
`check_for_score` clears nothing and leaves the score at 0; and the session stays running:
whatever archetype is queued, it passes `can_move_piece` on that board and the gravity
tick that hands over to it keeps `running` true. -/
theorem hard_drop_end_to_end (fuel next_type spawned_type : Nat) (hfuel : 16 ≤ fuel)
    (hnext : next_type < 10) :
    line_piece_at_spawn = spawn_new_piece 3 ∧
    line_piece_at_spawn.position = ⟨5, 13⟩ ∧
    block_drop fuel Bitset.empty line_piece_at_spawn (create_image line_piece_at_spawn)
      = some { screen := line_landed_board, piece := line_piece_landed,
               image := Bitset.empty } ∧
    Bitset.test line_landed_board (0 * COL + 4) = true ∧
    Bitset.test line_landed_board (0 * COL + 5) = true ∧
    Bitset.test line_landed_board (0 * COL + 6) = true ∧
    Bitset.test line_landed_board (0 * COL + 7) = true ∧
    Bitset.count line_landed_board = 4 ∧
    check_rows fuel 0 line_landed_board 0 = some (line_landed_board, 0) ∧
    check_for_score fuel line_landed_board 0 = some (line_landed_board, 0) ∧
    can_move_piece (spawn_new_piece next_type) line_landed_board = true ∧
    gravity_tick fuel
        { screen := line_landed_board, image := Bitset.empty, score := 0, running := true,
          level := 1, current_piece := line_piece_landed,
          next_piece := spawn_new_piece next_type } spawned_type
      = some { screen := line_landed_board,
               image := create_image (spawn_new_piece next_type), score := 0,
               running := true, level := 1, current_piece := spawn_new_piece next_type,
               next_piece := spawn_new_piece spawned_type } := by
  obtain ⟨k, rfl⟩ : ∃ k, fuel = 16 + k := ⟨fuel - 16, by omega⟩
  have hdrop := block_drop_mono 16 Bitset.empty line_piece_at_spawn
    { screen := line_landed_board, piece := line_piece_landed, image := Bitset.empty }
    (by decide) k
  have hrows := check_rows_mono 16 0 line_landed_board 0 (line_landed_board, 0)
    (by decide) k
  have hscore := check_for_score_mono 16 line_landed_board 0 (line_landed_board, 0)
    (by decide) k
  have hcan := spawn_on_line_landed_board next_type hnext
  refine ⟨by decide, by decide, hdrop, by decide, by decide, by decide, by decide,
    by decide, hrows, hscore, hcan, ?_⟩
  have hfall : block_fall line_landed_board line_piece_landed Bitset.empty
      = (false, { screen := line_landed_board, piece := line_piece_landed,
                  image := Bitset.empty }) := by decide
  unfold gravity_tick
  simp only [hfall, hscore, hcan]
  rfl

/-- Witness of C12: fuel 16, the square archetype (index 2) queued. -/
theorem hard_drop_end_to_end_witness :
    block_drop 16 Bitset.empty line_piece_at_spawn (create_image line_piece_at_spawn)
      = some { screen := line_landed_board, piece := line_piece_landed,
               image := Bitset.empty } ∧
    check_for_score 16 line_landed_board 0 = some (line_landed_board, 0) ∧
    can_move_piece (spawn_new_piece 2) line_landed_board = true :=
  ⟨(hard_drop_end_to_end 16 2 0 (by decide) (by decide)).2.2.1,
   (hard_drop_end_to_end 16 2 0 (by decide) (by decide)).2.2.2.2.2.2.2.2.2.1,
   (hard_drop_end_to_end 16 2 0 (by decide) (by decide)).2.2.2.2.2.2.2.2.2.2.1⟩

/-! ## Frame properties -/

theorem block_rotate_screen (screen : Bitset) (piece : BlockPiece) (image : Bitset) :
    (block_rotate screen piece image).2.screen = screen := by
  dsimp only [block_rotate]
  split
  · rfl
  · split <;> rfl

theorem block_fall_screen_superset (screen : Bitset) (piece : BlockPiece) (image : Bitset)
    (index : Int) (h : Bitset.test screen index = true) :
    Bitset.test (block_fall screen piece image).2.screen index = true := by
  by_cases hc : can_move_piece piece.lowered screen = true
  · rw [block_fall_of_can screen piece image hc]
    exact h
  · rw [block_fall_of_cannot screen piece image (by simpa using hc)]
    show Bitset.test (screen ||| image) index = true
    rw [Bitset.test_or, h]
    rfl

theorem block_drop_screen_superset : ∀ (fuel : Nat) (screen : Bitset) (piece : BlockPiece)
    (image : Bitset) (r : Refs), block_drop fuel screen piece image = some r →
    ∀ index : Int, Bitset.test screen index = true → Bitset.test r.screen index = true := by
  intro fuel
  induction fuel with
  | zero =>
    intro screen piece image r h
    exact Option.noConfusion h
  | succ fuel ih =>
    intro screen piece image r h index hset
    rw [block_drop] at h
    by_cases hc : can_move_piece piece.lowered screen = true
    · simp only [block_fall_of_can screen piece image hc, if_true] at h
      exact ih _ _ _ _ h index hset
    · have hcannot : can_move_piece piece.lowered screen = false := by simpa using hc
      simp only [block_fall_of_cannot screen piece image hcannot] at h
      have e : r = { screen := screen ||| image, piece := piece, image := Bitset.empty } := by
        simpa using h.symm
      rw [e]
      show Bitset.test (screen ||| image) index = true
      rw [Bitset.test_or, hset]
      rfl

/-- C15: no operation other than the line clearer removes an occupied cell: for every
board, piece and image, `block_move_horizontal` and `block_rotate` leave the board exactly
unchanged, and every cell set on the board before `block_fall` or `block_drop` is still
set after it (`block_drop` returns for every non-empty shape with fuel 16 or more). -/
theorem moves_keep_occupied_cells (screen : Bitset) (piece : BlockPiece) (image : Bitset)
    (direction : Int) :
    (block_move_horizontal screen piece image direction).2.screen = screen ∧
    (block_rotate screen piece image).2.screen = screen ∧
    (∀ index : Int, Bitset.test screen index = true →
      Bitset.test (block_fall screen piece image).2.screen index = true) ∧
    (∀ fuel r, block_drop fuel screen piece image = some r →
      ∀ index : Int, Bitset.test screen index = true →
        Bitset.test r.screen index = true) ∧
    (piece.shape ≠ [] → ∀ fuel, 16 ≤ fuel →
      ∃ r, block_drop fuel screen piece image = some r ∧
        ∀ index : Int, Bitset.test screen index = true →
          Bitset.test r.screen index = true) := by
  refine ⟨?_, block_rotate_screen screen piece image,
    block_fall_screen_superset screen piece image,
    fun fuel r h => block_drop_screen_superset fuel screen piece image r h, ?_⟩
  · by_cases hc : can_move_piece
        { piece with position := ⟨piece.position.col + direction, piece.position.row⟩ }
        screen = true
    · rw [block_move_horizontal_of_can screen piece image direction hc]
    · rw [block_move_horizontal_of_cannot screen piece image direction (by simpa using hc)]
  · intro hshape fuel hfuel
    obtain ⟨sp, h1, _⟩ := shadow_loop_total screen piece fuel hshape hfuel
    have hp := block_drop_piece fuel screen piece image
    rw [h1] at hp
    cases hd : block_drop fuel screen piece image with
    | none =>
      rw [hd] at hp
      exact Option.noConfusion hp
    | some r =>
      exact ⟨r, rfl, block_drop_screen_superset fuel screen piece image r hd⟩

/-- Witness of C15: the board with cell (0,0) set and the single cell at column 5, row 3:
cell (0,0) is still set after `block_fall` and after `block_drop` with fuel 16. -/
theorem moves_keep_occupied_cells_witness :
    Bitset.test (block_fall 1 (dot_piece 5 3) (create_image (dot_piece 5 3))).2.screen 0
      = true ∧
    (∃ r, block_drop 16 1 (dot_piece 5 3) (create_image (dot_piece 5 3)) = some r ∧
      ∀ index : Int, Bitset.test 1 index = true → Bitset.test r.screen index = true) :=
  ⟨(moves_keep_occupied_cells 1 (dot_piece 5 3) (create_image (dot_piece 5 3)) 1).2.2.1 0
      (by decide),
   (moves_keep_occupied_cells 1 (dot_piece 5 3) (create_image (dot_piece 5 3)) 1).2.2.2.2
      (by decide) 16 (by decide)⟩

/-! ## Termination of the line clearer -/

/-- The rows of a board split at row `r`. -/
theorem board_rows_split (screen : Bitset) (r : Nat) (hr : r < 15) :
    board_rows screen
      = (board_rows screen).take r
        ++ board_row screen (r : Int) :: (board_rows screen).drop (r + 1) := by
  have hlen := board_rows_length screen
  have hget : (board_rows screen)[r]? = some (board_row screen (r : Int)) := by
    rw [board_rows_getElem?, if_pos hr]
  have hr' : r < (board_rows screen).length := by omega
  have hx : (board_rows screen)[r] = board_row screen (r : Int) := by
    rw [List.getElem?_eq_getElem hr'] at hget
    exact Option.some.inj hget
  conv_lhs => rw [← List.take_append_drop r (board_rows screen)]
  rw [List.drop_eq_getElem_cons hr', hx]

/-- One cleared line: the top row becomes empty and the number of full rows decreases by
exactly one. -/
theorem full_row_count_after_clear (screen : Bitset) (row : Int) (h0 : 0 ≤ row)
    (h1 : row < 15) (hfull : full_line screen row = true) :
    board_row (move_lines_down (clear_line screen row) row) 14 = empty_row ∧
    full_row_count (move_lines_down (clear_line screen row) row) + 1
      = full_row_count screen := by
  constructor
  · rw [board_row_after_clear screen row ⟨h0, h1⟩ 14 (by decide)]
    have : ¬ (14 : Int) < row := by omega
    rw [if_neg this, if_pos rfl]
  · obtain ⟨r, rfl⟩ : ∃ r : Nat, row = (r : Int) := ⟨row.toNat, by omega⟩
    have hr : r < 15 := by omega
    have hsplit := board_rows_split screen r hr
    have hlen : ((board_rows screen).take r).length = r := by
      rw [List.length_take, board_rows_length]
      omega
    have hafter := board_rows_after_clear screen ((board_rows screen).take r)
      ((board_rows screen).drop (r + 1)) (board_row screen (r : Int)) hsplit
    rw [hlen] at hafter
    have hx : row_is_full (board_row screen (r : Int)) = true := by
      rw [← full_line_eq]
      exact hfull
    unfold full_row_count
    rw [hafter]
    conv_rhs => rw [hsplit]
    simp only [List.countP_append, List.countP_cons, List.countP_nil, hx,
      row_is_full_empty_row]
    simp
    omega

/-- C18: `check_for_score` terminates on every board (31 units of fuel suffice, one per
test of `row < ROW`) although its loop decrements the row index after each cleared line:
after a clear-and-shift the top row is empty and the number of full rows has decreased by
exactly one, and the loop clears at most `ROW` = 15 lines in total. -/
theorem check_for_score_terminates (screen : Bitset) (score fuel : Nat)
    (hfuel : 31 ≤ fuel) :
    (∃ r, check_for_score fuel screen score = some r) ∧
    (∃ screen' lines_cleared,
      check_rows fuel 0 screen 0 = some (screen', lines_cleared) ∧ lines_cleared ≤ 15) ∧
    (∀ row : Int, 0 ≤ row → row < ROW → full_line screen row = true →
      board_row (move_lines_down (clear_line screen row) row) (ROW - 1) = empty_row ∧
      full_row_count (move_lines_down (clear_line screen row) row) + 1
        = full_row_count screen) := by
  obtain ⟨screen', h1, _⟩ := check_rows_from_zero fuel hfuel screen
  refine ⟨⟨_, check_for_score_of_rows fuel screen score screen' _ h1⟩,
    ⟨screen', _, h1, full_row_count_le screen⟩, ?_⟩
  intro row h0 hrow hfull
  exact full_row_count_after_clear screen row h0 (by simpa [ROW] using hrow) hfull

/-- Witness of C18: the board `two_full_rows_board`, fuel 31, and its full row 2. -/
theorem check_for_score_terminates_witness :
    (∃ r, check_for_score 31 two_full_rows_board 0 = some r) ∧
    (board_row (move_lines_down (clear_line two_full_rows_board 2) 2) (ROW - 1) = empty_row ∧
      full_row_count (move_lines_down (clear_line two_full_rows_board 2) 2) + 1
        = full_row_count two_full_rows_board) :=
  ⟨(check_for_score_terminates two_full_rows_board 0 31 (by decide)).1,
   (check_for_score_terminates two_full_rows_board 0 31 (by decide)).2.2 2
      (by decide) (by decide) (by decide)⟩

/-! ## The locking step of the game loop -/

theorem level_of_score_eq (score : Nat) (h : score < 2 ^ 32) :
    level_of_score score = ((score / 250 + 1 : Nat) : Int) := by
  unfold level_of_score
  rw [Nat.mod_eq_of_lt (by omega)]

/-- C16 (game-over decision of the locking step): when the `block_fall` of a gravity tick
reports landed, the loop runs `check_for_score` (which returns with fuel 31 or more), sets
`level = score / 250 + 1`, makes the queued next piece the current piece, sets the image to
the image of that piece, and sets `running` to false iff that piece fails `can_move_piece`
against the board as compacted by `check_for_score`; otherwise the session continues. -/
theorem gravity_tick_locking_step (fuel : Nat) (s : Session) (spawned_type : Nat)
    (hfuel : 31 ≤ fuel)
    (hlanded : (block_fall s.screen s.current_piece s.image).1 = false)
    (hrunning : s.running = true) (hscore : s.score < 2 ^ 32) :
    ∃ screen' score' s',
      check_for_score fuel (block_fall s.screen s.current_piece s.image).2.screen s.score
        = some (screen', score') ∧
      gravity_tick fuel s spawned_type = some s' ∧
      s'.screen = screen' ∧ s'.score = score' ∧
      s'.level = ((score' / 250 + 1 : Nat) : Int) ∧
      s'.current_piece = s.next_piece ∧
      s'.next_piece = spawn_new_piece spawned_type ∧
      s'.image = create_image s'.current_piece ∧
      (s'.running = false ↔ can_move_piece s.next_piece screen' = false) ∧
      (s'.running = true ↔ can_move_piece s.next_piece screen' = true) := by
  obtain ⟨screen', h1, _⟩ := check_rows_from_zero fuel hfuel
    (block_fall s.screen s.current_piece s.image).2.screen
  have hcheck := check_for_score_of_rows fuel
    (block_fall s.screen s.current_piece s.image).2.screen s.score screen' _ h1
  obtain ⟨score', hscore', hlt⟩ : ∃ score', check_for_score fuel
      (block_fall s.screen s.current_piece s.image).2.screen s.score
        = some (screen', score') ∧ score' < 2 ^ 32 := by
    refine ⟨_, hcheck, ?_⟩
    split
    · exact Nat.mod_lt _ (by decide)
    · exact hscore
  have hlevel := level_of_score_eq score' hlt
  by_cases hc : can_move_piece s.next_piece screen' = true
  · refine ⟨screen', score',
      { screen := screen', image := create_image s.next_piece, score := score',
        running := s.running, level := level_of_score score',
        current_piece := s.next_piece, next_piece := spawn_new_piece spawned_type },
      hscore', ?_, rfl, rfl, hlevel, rfl, rfl, rfl, ?_, ?_⟩
    · unfold gravity_tick
      simp only [hlanded, hscore', hc]
      rfl
    · simp [hrunning, hc]
    · simp [hrunning, hc]
  · have hc' : can_move_piece s.next_piece screen' = false := by simpa using hc
    refine ⟨screen', score',
      { screen := screen', image := create_image s.next_piece, score := score',
        running := false, level := level_of_score score',
        current_piece := s.next_piece, next_piece := spawn_new_piece spawned_type },
      hscore', ?_, rfl, rfl, hlevel, rfl, rfl, rfl, ?_, ?_⟩
    · unfold gravity_tick
      simp only [hlanded, hscore', hc']
      rfl
    · simp [hc']
    · simp [hc']

/-- Witness of C16: in `blocked_spawn_session` the current piece has landed and the queued
single cell is blocked at the spawn point: the gravity tick with fuel 31 ends the game. -/
theorem gravity_tick_locking_step_witness :
    ∃ s', gravity_tick 31 blocked_spawn_session 0 = some s' ∧
      s'.current_piece = spawn_new_piece 1 ∧ s'.running = false := by
  obtain ⟨screen', score', s', hcheck, htick, hscreen, _, _, hcur, _, _, hrun, _⟩ :=
    gravity_tick_locking_step 31 blocked_spawn_session 0 (by decide) (by decide) rfl
      (by decide)
  have hval : check_for_score 31
      (block_fall blocked_spawn_session.screen blocked_spawn_session.current_piece
        blocked_spawn_session.image).2.screen blocked_spawn_session.score
      = some (2 ^ 135 + 1, 0) := by decide
  rw [hval] at hcheck
  have hs : screen' = 2 ^ 135 + 1 := by
    have := Option.some.inj hcheck
    exact (congrArg Prod.fst this).symm
  refine ⟨s', htick, hcur, hrun.2 ?_⟩
  rw [hs]
  decide

/-- C17 fails on the code: on the empty board the single-cell archetype at the spawn point
passes `can_move_piece`; the key `s` (hard drop) locks it in cell (5,0) and leaves it the
current piece; the key `a` then moves it to column 4 and gives it a new image (also
`block_rotate` returns true on the locked piece); the next `block_fall` pastes that image:
the board holds two cells for a piece of one cell. -/
theorem hard_drop_then_move_duplicates_piece :
    dot_piece 5 13 = spawn_new_piece 1 ∧
    (dot_piece 5 13).shape.length = 1 ∧
    can_move_piece (dot_piece 5 13) Bitset.empty = true ∧
    handle_kb_event 16 115 0 Bitset.empty (dot_piece 5 13) (create_image (dot_piece 5 13))
        true
      = some ({ screen := 2 ^ 5, piece := dot_piece 5 0, image := Bitset.empty }, true) ∧
    (block_move_horizontal (2 ^ 5) (dot_piece 5 0) Bitset.empty (-1)).1 = true ∧
    (block_rotate (2 ^ 5) (dot_piece 5 0) Bitset.empty).1 = true ∧
    handle_kb_event 16 97 0 (2 ^ 5) (dot_piece 5 0) Bitset.empty true
      = some ({ screen := 2 ^ 5, piece := dot_piece 4 0, image := 2 ^ 4 }, true) ∧
    block_fall (2 ^ 5) (dot_piece 4 0) (2 ^ 4)
      = (false, { screen := 2 ^ 5 + 2 ^ 4, piece := dot_piece 4 0,
                  image := Bitset.empty }) ∧
    Bitset.count (2 ^ 5) = 1 ∧ Bitset.count (2 ^ 5 + 2 ^ 4) = 2 := by
  decide

/-! ## The legal-placement invariant -/

theorem tmod_four_range (rotation : Int) (h0 : 0 ≤ rotation) (h3 : rotation ≤ 3) :
    0 ≤ Int.tmod (rotation + 1) 4 ∧ Int.tmod (rotation + 1) 4 ≤ 3 := by
  interval_cases rotation <;> decide

/-- C19 (legal-placement invariant): if the piece passes `can_move_piece` on the board,
`image = create_image piece` and the rotation is in {0,1,2,3}, then all three still hold
after `block_move_horizontal` (any direction, whatever it returns), after `block_rotate`
(whatever it returns), and after a `block_fall` that returns true. -/
theorem legal_placement_preserved (screen : Bitset) (piece : BlockPiece) (image : Bitset)
    (direction : Int) (h : legal_placement screen piece image) :
    legal_placement (block_move_horizontal screen piece image direction).2.screen
      (block_move_horizontal screen piece image direction).2.piece
      (block_move_horizontal screen piece image direction).2.image ∧
    legal_placement (block_rotate screen piece image).2.screen
      (block_rotate screen piece image).2.piece
      (block_rotate screen piece image).2.image ∧
    ((block_fall screen piece image).1 = true →
      legal_placement (block_fall screen piece image).2.screen
        (block_fall screen piece image).2.piece
        (block_fall screen piece image).2.image) := by
  obtain ⟨hplace, himage, h0, h3⟩ := h
  refine ⟨?_, ?_, ?_⟩
  · by_cases hc : can_move_piece
        { piece with position := ⟨piece.position.col + direction, piece.position.row⟩ }
        screen = true
    · rw [block_move_horizontal_of_can screen piece image direction hc]
      exact ⟨hc, rfl, h0, h3⟩
    · rw [block_move_horizontal_of_cannot screen piece image direction (by simpa using hc)]
      exact ⟨hplace, himage, h0, h3⟩
  · have hrot := tmod_four_range piece.rotation h0 h3
    obtain ⟨r, hr⟩ : ∃ r : BlockPiece,
        r = { piece with rotation := Int.tmod (piece.rotation + 1) 4 } := ⟨_, rfl⟩
    have hrr : r.rotation = Int.tmod (piece.rotation + 1) 4 := by rw [hr]
    have hdef : block_rotate screen piece image
        = if can_move_piece r screen then
            (true, { screen := screen, piece := r, image := create_image r })
          else
            match kick_x_loop screen r (int_range (-1) 2) with
            | some kicked_piece =>
              (true, { screen := screen, piece := kicked_piece,
                       image := create_image kicked_piece })
            | none => (false, { screen := screen, piece := piece, image := image }) := by
      rw [hr]
      rfl
    rw [hdef]
    by_cases hc : can_move_piece r screen = true
    · rw [if_pos hc]
      exact ⟨hc, rfl, by rw [hrr]; exact hrot.1, by rw [hrr]; exact hrot.2⟩
    · rw [if_neg hc]
      cases hk : kick_x_loop screen r (int_range (-1) 2) with
      | none => exact ⟨hplace, himage, h0, h3⟩
      | some k =>
        rw [kick_x_loop_eq] at hk
        have hcan : can_move_piece k screen = true :=
          @List.find?_some _ (fun c => can_move_piece c screen) k _ hk
        have hmem := List.mem_of_find?_eq_some hk
        have hkrot : k.rotation = r.rotation := by
          simp only [List.mem_cons, List.mem_singleton, List.not_mem_nil, or_false] at hmem
          rcases hmem with e | e | e | e | e | e | e | e <;> rw [e] <;> rfl
        exact ⟨hcan, rfl, by rw [hkrot, hrr]; exact hrot.1, by rw [hkrot, hrr]; exact hrot.2⟩
  · intro hfall
    by_cases hc : can_move_piece piece.lowered screen = true
    · rw [block_fall_of_can screen piece image hc]
      exact ⟨hc, rfl, h0, h3⟩
    · rw [block_fall_of_cannot screen piece image (by simpa using hc)] at hfall
      exact Bool.noConfusion hfall

/-- Witness of C19: the 4-in-line piece at the spawn point on the empty board, moved
left, rotated, and fallen by one row. -/
theorem legal_placement_preserved_witness :
    legal_placement
      (block_move_horizontal Bitset.empty line_piece_at_spawn
        (create_image line_piece_at_spawn) (-1)).2.screen
      (block_move_horizontal Bitset.empty line_piece_at_spawn
        (create_image line_piece_at_spawn) (-1)).2.piece
      (block_move_horizontal Bitset.empty line_piece_at_spawn
        (create_image line_piece_at_spawn) (-1)).2.image ∧
    legal_placement
      (block_rotate Bitset.empty line_piece_at_spawn
        (create_image line_piece_at_spawn)).2.screen
      (block_rotate Bitset.empty line_piece_at_spawn
        (create_image line_piece_at_spawn)).2.piece
      (block_rotate Bitset.empty line_piece_at_spawn
        (create_image line_piece_at_spawn)).2.image ∧
    legal_placement
      (block_fall Bitset.empty line_piece_at_spawn
        (create_image line_piece_at_spawn)).2.screen
      (block_fall Bitset.empty line_piece_at_spawn
        (create_image line_piece_at_spawn)).2.piece
      (block_fall Bitset.empty line_piece_at_spawn
        (create_image line_piece_at_spawn)).2.image :=
  ⟨(legal_placement_preserved Bitset.empty line_piece_at_spawn
      (create_image line_piece_at_spawn) (-1)
      ⟨by decide, rfl, by decide, by decide⟩).1,
   (legal_placement_preserved Bitset.empty line_piece_at_spawn
      (create_image line_piece_at_spawn) (-1)
      ⟨by decide, rfl, by decide, by decide⟩).2.1,
   (legal_placement_preserved Bitset.empty line_piece_at_spawn
      (create_image line_piece_at_spawn) (-1)
      ⟨by decide, rfl, by decide, by decide⟩).2.2 (by decide)⟩

/-! ## Every bitset access is in range -/

theorem Bitset.test_checked_of_in_range (b : Bitset) (index : Int)
    (h : Bitset.in_range index = true) :
    Bitset.test_checked b index = some (Bitset.test b index) := by
  simp [Bitset.test_checked, Bitset.test, h]

theorem Bitset.set_checked_of_in_range (b : Bitset) (index : Int)
    (h : Bitset.in_range index = true) :
    Bitset.set_checked b index = some (Bitset.set b index) := by
  simp [Bitset.set_checked, Bitset.set, h]

theorem Bitset.reset_checked_of_in_range (b : Bitset) (index : Int)
    (h : Bitset.in_range index = true) :
    Bitset.reset_checked b index = some (Bitset.reset b index) := by
  simp [Bitset.reset_checked, Bitset.reset, h]

theorem Bitset.assign_checked_of_in_range (b : Bitset) (index : Int) (value : Bool)
    (h : Bitset.in_range index = true) :
    Bitset.assign_checked b index value = some (Bitset.assign b index value) := by
  cases value
  · simp [Bitset.assign_checked, Bitset.assign, Bitset.reset_checked_of_in_range b index h]
  · simp [Bitset.assign_checked, Bitset.assign, Bitset.set_checked_of_in_range b index h]

theorem in_range_of_row_col (row col : Int) (hrow : 0 ≤ row ∧ row < 15)
    (hcol : 0 ≤ col ∧ col < 10) : Bitset.in_range (row * COL + col) = true := by
  rw [Bitset.in_range_iff]
  simp only [COL]
  omega

/-- A checked loop whose body never fails on the values it meets is the unchecked loop. -/
theorem fold_checked_eq {σ α : Type} (f : σ → α → Option σ) (g : σ → α → σ) (xs : List α)
    (h : ∀ a ∈ xs, ∀ s, f s a = some (g s a)) :
    ∀ s, fold_checked f s xs = some (xs.foldl g s) := by
  induction xs with
  | nil => intro s; rfl
  | cons a rest ih =>
    intro s
    rw [fold_checked, h a (List.mem_cons_self _ _) s, List.foldl_cons]
    exact ih (fun b hb => h b (List.mem_cons_of_mem _ hb)) _

theorem can_move_loop_checked_eq (screen : Bitset) (positions : List Point) :
    can_move_loop_checked screen positions = some (can_move_loop screen positions) := by
  induction positions with
  | nil => rfl
  | cons pos rest ih =>
    rw [can_move_loop_checked, can_move_loop]
    by_cases hv : is_valid_position pos.col pos.row = true
    · have hr : pos.row < ROW := by
        have := (is_valid_position_iff _ _).1 hv
        simp only [ROW]
        omega
      rw [Bitset.test_checked_of_in_range _ _ (in_range_of_valid _ _ hv)]
      cases ht : Bitset.test screen (pos.row * COL + pos.col)
      · simp [hv, hr, ih]
      · simp [hv, hr]
    · simp [hv]

theorem mark_point_on_img_checked_eq (pt : Point) (image : Bitset) :
    mark_point_on_img_checked pt image = some (mark_point_on_img pt image) := by
  unfold mark_point_on_img_checked mark_point_on_img
  by_cases hv : is_valid_position pt.col pt.row = true
  · simp only [hv, if_true]
    exact Bitset.set_checked_of_in_range _ _ (in_range_of_valid _ _ hv)
  · simp only [hv]
    rfl

theorem create_image_checked_eq (piece : BlockPiece) :
    create_image_checked piece = some (create_image piece) := by
  unfold create_image_checked create_image
  exact fold_checked_eq _ (fun image pos => mark_point_on_img pos image) _
    (fun pos _ image => mark_point_on_img_checked_eq pos image) _

theorem full_line_loop_checked_eq (screen : Bitset) (row : Int) (hrow : 0 ≤ row ∧ row < 15)
    (cols : List Int) (hcols : ∀ col ∈ cols, 0 ≤ col ∧ col < 10) :
    full_line_loop_checked screen row cols
      = some (cols.all (fun col => Bitset.test screen (row * COL + col))) := by
  induction cols with
  | nil => rfl
  | cons col rest ih =>
    have hcol := hcols col (List.mem_cons_self _ _)
    rw [full_line_loop_checked,
      Bitset.test_checked_of_in_range _ _ (in_range_of_row_col row col hrow hcol)]
    cases ht : Bitset.test screen (row * COL + col)
    · simp [ht]
    · simp [ht, ih (fun c hc => hcols c (List.mem_cons_of_mem _ hc))]

theorem mem_cols (col : Int) (h : col ∈ int_range 0 COL) : 0 ≤ col ∧ col < 10 := by
  simpa [COL] using (mem_int_range _ _ _).1 h

theorem full_line_checked_eq (screen : Bitset) (row : Int) (hrow : 0 ≤ row ∧ row < 15) :
    full_line_checked screen row = some (full_line screen row) :=
  full_line_loop_checked_eq screen row hrow _ (fun col h => mem_cols col h)

theorem clear_line_checked_eq (screen : Bitset) (row : Int) (hrow : 0 ≤ row ∧ row < 15) :
    clear_line_checked screen row = some (clear_line screen row) := by
  unfold clear_line_checked clear_line
  exact fold_checked_eq _ (fun screen col => Bitset.reset screen (row * COL + col)) _
    (fun col h s =>
      Bitset.reset_checked_of_in_range s _ (in_range_of_row_col row col hrow (mem_cols col h)))
    _

theorem move_row_down_checked_eq (screen : Bitset) (move_row : Int)
    (hrow : 1 ≤ move_row ∧ move_row < 15) :
    move_row_down_checked screen move_row = some (move_row_down screen move_row) := by
  unfold move_row_down_checked move_row_down
  refine fold_checked_eq _ _ _ ?_ _
  intro col h s
  have hcol := mem_cols col h
  have hfrom := in_range_of_row_col move_row col ⟨by omega, hrow.2⟩ hcol
  have hto := in_range_of_row_col (move_row - 1) col ⟨by omega, by omega⟩ hcol
  simp only [Bitset.test_checked_of_in_range _ _ hfrom,
    Bitset.assign_checked_of_in_range _ _ _ hto,
    Bitset.assign_checked_of_in_range _ _ _ hfrom]

theorem move_lines_down_checked_eq (screen : Bitset) (row : Int) (hrow : 0 ≤ row) :
    move_lines_down_checked screen row = some (move_lines_down screen row) := by
  unfold move_lines_down_checked move_lines_down
  refine fold_checked_eq _ _ _ ?_ _
  intro move_row h s
  have hm := (mem_int_range _ _ _).1 h
  simp only [ROW] at hm
  exact move_row_down_checked_eq s move_row ⟨by omega, hm.2⟩

/-- The checked row loop, started at a row `>= 0`, never meets an access out of range:
it is the row loop. -/
theorem check_rows_checked_eq : ∀ (fuel : Nat) (row : Int) (screen : Bitset) (lines : Nat),
    0 ≤ row →
    check_rows_checked fuel row screen lines
      = (check_rows fuel row screen lines).map some := by
  intro fuel
  induction fuel with
  | zero => intro row screen lines _; rfl
  | succ fuel ih =>
    intro row screen lines hrow
    rw [check_rows_checked, check_rows]
    by_cases hlt : row < ROW
    · have hr : 0 ≤ row ∧ row < 15 := ⟨hrow, by simpa [ROW] using hlt⟩
      rw [if_pos hlt, if_pos hlt, full_line_checked_eq screen row hr]
      cases hfull : full_line screen row
      · simp only [Bool.false_eq_true, if_false]
        exact ih _ _ _ (by omega)
      · simp only [if_true, clear_line_checked_eq screen row hr,
          move_lines_down_checked_eq _ row hrow]
        exact ih _ _ _ (by omega)
    · rw [if_neg hlt, if_neg hlt]
      rfl

theorem check_for_score_checked_eq (fuel : Nat) (screen : Bitset) (score : Nat) :
    check_for_score_checked fuel screen score
      = (check_for_score fuel screen score).map some := by
  unfold check_for_score_checked check_for_score
  rw [check_rows_checked_eq fuel 0 screen 0 (le_refl _)]
  cases check_rows fuel 0 screen 0 with
  | none => rfl
  | some r =>
    obtain ⟨screen', lines⟩ := r
    simp only [Option.map_some']
    by_cases hn : lines > 0
    · simp only [if_pos hn, Option.map_some']
    · simp only [if_neg hn, Option.map_some']

/-- C21: every bit index used on the 150-bit board is in range `[0, ROW * COL)`.  A
position that passes `is_valid_position` has its index `row * COL + col` in range; with
every access checked, `can_move_piece`, `mark_point_on_img` and `create_image` never meet
an access out of range, for every board, piece and point, and neither do the row loop of
`check_for_score` and `check_for_score` itself, for every board and every fuel (the row
index is back at a value in `[0, ROW)` when the cells are accessed after a cleared line);
with fuel 31 or more the checked `check_for_score` returns its result. -/
theorem bitset_accesses_in_range (screen : Bitset) (piece : BlockPiece) (pt : Point)
    (image : Bitset) (score fuel : Nat) :
    (is_valid_position pt.col pt.row = true →
      0 ≤ pt.row * COL + pt.col ∧ pt.row * COL + pt.col < ROW * COL) ∧
    can_move_piece_checked piece screen = some (can_move_piece piece screen) ∧
    mark_point_on_img_checked pt image = some (mark_point_on_img pt image) ∧
    create_image_checked piece = some (create_image piece) ∧
    check_rows_checked fuel 0 screen 0 = (check_rows fuel 0 screen 0).map some ∧
    check_for_score_checked fuel screen score
      = (check_for_score fuel screen score).map some ∧
    (31 ≤ fuel →
      ∃ r, check_for_score fuel screen score = some r ∧
        check_for_score_checked fuel screen score = some (some r)) := by
  refine ⟨?_, can_move_loop_checked_eq screen _, mark_point_on_img_checked_eq pt image,
    create_image_checked_eq piece, check_rows_checked_eq fuel 0 screen 0 (le_refl _),
    check_for_score_checked_eq fuel screen score, ?_⟩
  · intro hv
    have := (Bitset.in_range_iff _).1 (in_range_of_valid _ _ hv)
    simp only [ROW, COL] at this ⊢
    omega
  · intro hfuel
    obtain ⟨screen', h1, _⟩ := check_rows_from_zero fuel hfuel screen
    have h := check_for_score_of_rows fuel screen score screen' _ h1
    refine ⟨_, h, ?_⟩
    rw [check_for_score_checked_eq, h]
    rfl

/-- Witness of C21: the point (9,14) has the index 149, and the checked `check_for_score`
returns on the board `two_full_rows_board` with fuel 31; the checks are effective: the
index `ROW * COL` is refused, and so is the row loop started at row -1. -/
theorem bitset_accesses_in_range_witness :
    ((0 : Int) ≤ 14 * COL + 9 ∧ (14 : Int) * COL + 9 < ROW * COL) ∧
    (∃ r, check_for_score 31 two_full_rows_board 5 = some r ∧
      check_for_score_checked 31 two_full_rows_board 5 = some (some r)) ∧
    Bitset.test_checked two_full_rows_board (ROW * COL) = none ∧
    check_rows_checked 31 (-1) two_full_rows_board 0 = some none :=
  ⟨(bitset_accesses_in_range two_full_rows_board line_piece_at_spawn ⟨9, 14⟩ Bitset.empty
      5 31).1 (by decide),
   (bitset_accesses_in_range two_full_rows_board line_piece_at_spawn ⟨9, 14⟩ Bitset.empty
      5 31).2.2.2.2.2.2 (by decide),
   by decide, by decide⟩

end Tetris
